import Mathlib

/-!
Verification development for the `computed-interface` Directus extension
(`src/utils.ts`).  The module is shallowly embedded: JavaScript runtime
values are modelled by the inductive type `JVal` (with an explicit `undef`
constructor for JavaScript's `undefined`), records by insertion-ordered
association lists, and the reactive watch handler of `useDeepValues` by an
explicit state-passing function over the two caches.  The remote API client
and the stores are out-of-scope collaborators of the module; following the
design document they are modelled abstractly as function parameters of an
`Env` structure (`fieldRead` for the single-field baseline read,
`itemsFetch` for the by-id entity reads).

Modelling notes (JavaScript semantics):
* Records parsed from `JSON.parse` never contain `undef`; `undef` only
  arises from missing-property lookups inside the handler.
* `JSON.stringify` is injective on parse images (key order is preserved),
  so the `JSON.stringify(a) !== JSON.stringify(b)` comparisons of the
  source are modelled as structural inequality of `JVal`s.
* JavaScript orders integer-like property names first; the model assumes
  non-numeric field names (insertion order), which is the case for
  Directus field names.
* Prototype-chain properties (e.g. `'toString' in obj`) are not modelled;
  the `in` operator is modelled on own properties.
-/

set_option maxHeartbeats 1000000

namespace DCI

/-- A JavaScript runtime value as manipulated by `utils.ts`: JSON values
plus `undefined`.  Numbers are modelled as integers (all ids and values in
the specification are integral). -/
inductive JVal where
  | undef
  | null
  | bool (b : Bool)
  | num (n : Int)
  | str (s : String)
  | arr (elems : List JVal)
  | obj (fields : List (String × JVal))

mutual
def JVal.decEq : (a b : JVal) → Decidable (a = b)
  | JVal.undef, JVal.undef => isTrue rfl
  | .null, .null => isTrue rfl
  | .bool a, .bool b =>
    if h : a = b then isTrue (h ▸ rfl) else isFalse (fun he => h (JVal.bool.inj he))
  | .num a, .num b =>
    if h : a = b then isTrue (h ▸ rfl) else isFalse (fun he => h (JVal.num.inj he))
  | .str a, .str b =>
    if h : a = b then isTrue (h ▸ rfl) else isFalse (fun he => h (JVal.str.inj he))
  | .arr xs, .arr ys =>
    match JVal.decEqList xs ys with
    | isTrue h => isTrue (h ▸ rfl)
    | isFalse h => isFalse (fun he => h (JVal.arr.inj he))
  | .obj xs, .obj ys =>
    match JVal.decEqObj xs ys with
    | isTrue h => isTrue (h ▸ rfl)
    | isFalse h => isFalse (fun he => h (JVal.obj.inj he))
  | JVal.undef, .null | JVal.undef, .bool _ | JVal.undef, .num _ | JVal.undef, .str _
  | JVal.undef, .arr _ | JVal.undef, .obj _
  | .null, JVal.undef | .null, .bool _ | .null, .num _ | .null, .str _
  | .null, .arr _ | .null, .obj _
  | .bool _, JVal.undef | .bool _, .null | .bool _, .num _ | .bool _, .str _
  | .bool _, .arr _ | .bool _, .obj _
  | .num _, JVal.undef | .num _, .null | .num _, .bool _ | .num _, .str _
  | .num _, .arr _ | .num _, .obj _
  | .str _, JVal.undef | .str _, .null | .str _, .bool _ | .str _, .num _
  | .str _, .arr _ | .str _, .obj _
  | .arr _, JVal.undef | .arr _, .null | .arr _, .bool _ | .arr _, .num _
  | .arr _, .str _ | .arr _, .obj _
  | .obj _, JVal.undef | .obj _, .null | .obj _, .bool _ | .obj _, .num _
  | .obj _, .str _ | .obj _, .arr _ => isFalse (fun h => JVal.noConfusion h)

def JVal.decEqList : (xs ys : List JVal) → Decidable (xs = ys)
  | [], [] => isTrue rfl
  | [], _ :: _ => isFalse (fun h => List.noConfusion h)
  | _ :: _, [] => isFalse (fun h => List.noConfusion h)
  | x :: xs, y :: ys =>
    match JVal.decEq x y with
    | isFalse h1 => isFalse (fun he => h1 (List.cons.inj he).1)
    | isTrue h1 =>
      match JVal.decEqList xs ys with
      | isTrue h2 => isTrue (by rw [h1, h2])
      | isFalse h2 => isFalse (fun he => h2 (List.cons.inj he).2)

def JVal.decEqObj : (xs ys : List (String × JVal)) → Decidable (xs = ys)
  | [], [] => isTrue rfl
  | [], _ :: _ => isFalse (fun h => List.noConfusion h)
  | _ :: _, [] => isFalse (fun h => List.noConfusion h)
  | (k, x) :: xs, (l, y) :: ys =>
    if hk : k = l then
      match JVal.decEq x y with
      | isFalse h1 => isFalse (fun he => h1 (congrArg Prod.snd (List.cons.inj he).1))
      | isTrue h1 =>
        match JVal.decEqObj xs ys with
        | isTrue h2 => isTrue (by rw [hk, h1, h2])
        | isFalse h2 => isFalse (fun he => h2 (List.cons.inj he).2)
    else isFalse (fun he => hk (congrArg Prod.fst (List.cons.inj he).1))
end

instance : DecidableEq JVal := JVal.decEq

/-- A JavaScript object (`Record<string, any>`): an insertion-ordered
association list of own properties. -/
abbrev Obj := List (String × JVal)

/-- First binding of key `k`, if present (JS own-property lookup). -/
def getA {α : Type} (m : List (String × α)) (k : String) : Option α :=
  (m.find? (fun p => p.1 == k)).map (fun p => p.2)

/-- Own-property presence test (the JS `in` operator on plain parsed objects). -/
def hasA {α : Type} (m : List (String × α)) (k : String) : Bool :=
  (m.find? (fun p => p.1 == k)).isSome

/-- JS property assignment `m[k] = v`: overwrite in place if the key is
present, append otherwise. -/
def setA {α : Type} (m : List (String × α)) (k : String) (v : α) : List (String × α) :=
  if hasA m k then m.map (fun p => if p.1 == k then (k, v) else p) else m ++ [(k, v)]

/-- JS property read `o[k]`: `undefined` when the key is absent. -/
def Obj.get (o : Obj) (k : String) : JVal :=
  (getA o k).getD JVal.undef

/-- Property read on an arbitrary value; non-objects yield `undefined`
(the handler only reads names like `update` / `id`, which are neither
array indices nor built-in properties). -/
def JVal.getProp : JVal → String → JVal
  | .obj kvs, k => Obj.get kvs k
  | _, _ => JVal.undef

/-- JS truthiness. -/
def truthy : JVal → Bool
  | JVal.undef => false
  | .null => false
  | .bool b => b
  | .num n => n != 0
  | .str s => s != ""
  | .arr _ => true
  | .obj _ => true

/-- `typeof v === 'object'` (note: `null` and arrays are object-typed). -/
def typeofIsObject : JVal → Bool
  | .null => true
  | .arr _ => true
  | .obj _ => true
  | _ => false

/-- `typeof v === 'number' || typeof v === 'string'`. -/
def isScalar : JVal → Bool
  | .num _ => true
  | .str _ => true
  | _ => false

/-- `v instanceof Array`. -/
def JVal.isArr : JVal → Bool
  | .arr _ => true
  | _ => false

/-- View a value as an array for iteration (`.map`, `.find`, `.includes`);
the source would throw on a non-array, a case no claim exercises. -/
def asArr : JVal → List JVal
  | .arr xs => xs
  | _ => []

/-- `xs.concat(v)`: spreads an array argument, appends anything else. -/
def jsConcat (xs : List JVal) : JVal → List JVal
  | .arr ys => xs ++ ys
  | v => xs ++ [v]

/-- Object spread `{...base, ...v}` restricted to the source part: fold the
own enumerable properties of `v` into `base` (strings spread their
characters, `null`/`undefined`/other primitives spread nothing). -/
def jsSpreadInto (base : Obj) : JVal → Obj
  | .obj kvs => kvs.foldl (fun b p => setA b p.1 p.2) base
  | .arr xs => xs.enum.foldl (fun b p => setA b (toString p.1) p.2) base
  | .str s => s.data.enum.foldl (fun b p => setA b (toString p.1) (.str (String.mk [p.2]))) base
  | _ => base

/-- `{...item, ...upd}` — the shallow merge used when resolving entities. -/
def jsMerge (item upd : JVal) : JVal :=
  .obj (jsSpreadInto (jsSpreadInto [] item) upd)

/-- `{...v}` as used for the `create` normalization of a many-to-one value. -/
def spreadClone (v : JVal) : JVal :=
  .obj (jsSpreadInto [] v)

mutual
/-- JS `ToString` of a value used as a property key
(`itemCache[collection][id]` coerces the id to a string, so the number `2`
and the string `"2"` share a cache slot). -/
def jvalKey : JVal → String
  | JVal.undef => "undefined"
  | .null => "null"
  | .bool true => "true"
  | .bool false => "false"
  | .num n => toString n
  | .str s => s
  | .arr xs => jvalKeyList xs
  | .obj _ => "[object Object]"

/-- `Array.prototype.toString`: comma-joined elements, `null`/`undefined`
elements rendered empty. -/
def jvalKeyList : List JVal → String
  | [] => ""
  | v :: vs =>
    let s := match v with
      | .null => ""
      | JVal.undef => ""
      | w => jvalKey w
    match vs with
    | [] => s
    | _ => s ++ "," ++ jvalKeyList vs
end

/-! ## Template field matcher (`checkFieldInTemplate`, utils.ts lines 6-9) -/

/-- JS line terminators, which `.` does not match in the regex `/{{.*?}}/g`. -/
def isLineTerm (c : Char) : Bool :=
  c = '\n' || c = '\r' || c = Char.ofNat 0x2028 || c = Char.ofNat 0x2029

/-- Non-greedy search for the closing `}}`: the shortest
line-terminator-free content followed by `}}`, together with the rest of
the input after the `}}`. -/
def findClose : List Char → Option (List Char × List Char)
  | [] => none
  | c :: rest =>
    if c = '}' && rest.head? == some '}' then
      some ([], rest.tail)
    else if isLineTerm c then none
    else (findClose rest).map (fun pr => (c :: pr.1, pr.2))

theorem findClose_length {cs r : List Char} {p : List Char}
    (h : findClose cs = some (p, r)) : r.length < cs.length := by
  induction cs generalizing p r with
  | nil => simp [findClose] at h
  | cons c rest ih =>
    simp only [findClose] at h
    split at h
    · cases h
      have ht : rest.tail.length ≤ rest.length := by cases rest <;> simp
      simp only [List.length_cons]
      omega
    · split at h
      · cases h
      · cases hr : findClose rest with
        | none => rw [hr] at h; cases h
        | some pr =>
          rw [hr] at h
          cases h
          exact Nat.lt_trans (ih hr) (by simp)

/-- Fuel-based scanner for `/{{.*?}}/g`; every recursive call strictly
shrinks the input, so fuel `cs.length` makes `extractAux` total and equal
to the unbounded scan (`extractAux_fuel`). -/
def extractAux : Nat → List Char → List (List Char)
  | 0, _ => []
  | fuel + 1, cs =>
    match cs with
    | [] => []
    | c :: rest =>
      if c = '{' && rest.head? == some '{' then
        match findClose rest.tail with
        | some pr => ('{' :: '{' :: (pr.1 ++ ['}', '}'])) :: extractAux fuel pr.2
        | none => extractAux fuel rest
      else extractAux fuel rest

/-- The successive matches of `/{{.*?}}/g` on the template: at each
position that starts with `{{`, the regex engine takes the shortest
newline-free content up to a `}}` and resumes after the match; on failure
it advances one position. -/
def extractPlaceholders (cs : List Char) : List (List Char) :=
  extractAux cs.length cs

theorem extractAux_nil : ∀ n, extractAux n [] = []
  | 0 => rfl
  | _ + 1 => rfl

/-- The fuel `cs.length` is always sufficient: any larger fuel gives the
same matches. -/
theorem extractAux_fuel : ∀ (f g : Nat) (cs : List Char), cs.length ≤ f → cs.length ≤ g →
    extractAux f cs = extractAux g cs := by
  intro f
  induction f with
  | zero =>
    intro g cs hf _
    have : cs = [] := List.eq_nil_of_length_eq_zero (Nat.le_zero.mp hf)
    subst this
    rw [extractAux_nil, extractAux_nil]
  | succ f ih =>
    intro g cs hf hg
    cases cs with
    | nil => rw [extractAux_nil, extractAux_nil]
    | cons c rest =>
      cases g with
      | zero => simp at hg
      | succ g =>
        simp only [extractAux]
        have hrest : rest.length ≤ f ∧ rest.length ≤ g := by
          simp only [List.length_cons] at hf hg
          omega
        split
        · cases hfc : findClose rest.tail with
          | none => simp only [ih g rest hrest.1 hrest.2]
          | some pr =>
            have h1 := findClose_length hfc
            have h2 : rest.tail.length ≤ rest.length := by cases rest <;> simp
            have h3 : pr.2.length ≤ f ∧ pr.2.length ≤ g := by omega
            simp only [ih g pr.2 h3.1 h3.2]
        · exact ih g rest hrest.1 hrest.2

/-- `needle` occurs as a contiguous substring of `hay`
(JS `String.prototype.includes`). -/
def containsSub (hay needle : List Char) : Bool :=
  (List.range (hay.length + 1)).any (fun i => needle.isPrefixOf (hay.drop i))

/-- `checkFieldInTemplate` (utils.ts lines 6-9): some `{{...}}` match of
the template contains the field name as a substring. -/
def checkFieldInTemplate (template field : String) : Bool :=
  (extractPlaceholders template.data).any (fun m => containsSub m field.data)

/-! ## Trigger gate (`shouldUpdate`, utils.ts lines 12-35) -/

/-- `{...a, ...b}`: object-literal spread merge. -/
def spreadJS (a b : Obj) : Obj :=
  b.foldl (fun m p => setA m p.1 p.2) (a.foldl (fun m p => setA m p.1 p.2) [])

/-- The changed-field list computed by `shouldUpdate`: keys of
`{...oldVal, ...val}` (other than the computed field) whose values differ.
The source compares `val[key] !== oldVal[key] &&
JSON.stringify(val[key]) !== JSON.stringify(oldVal[key])`; on parse images
this conjunction is exactly structural inequality of the two `JVal`s
(for primitives strict equality agrees with stringify equality, and for
objects the references always differ). -/
def changedFields (computedField : String) (val oldVal : Obj) : List String :=
  ((spreadJS oldVal val).map Prod.fst).filter
    (fun key => key != computedField && Obj.get val key != Obj.get oldVal key)

/-- `shouldUpdate` (utils.ts lines 12-35). -/
def shouldUpdate (template computedField : String) (val oldVal : Obj) : Bool :=
  let cf := changedFields computedField val oldVal
  if cf.isEmpty then
    true
  else
    cf.any (fun field => checkFieldInTemplate template field)

/-! ## Relations and the engine environment -/

/-- The `meta` part of a Directus relation used by the engine
(`rel.meta?.one_field`, `rel.meta?.many_field`). -/
structure RelationMeta where
  one_field : Option String
  many_field : Option String
deriving DecidableEq

/-- A relation descriptor as consumed by `useDeepValues`. -/
structure Relation where
  collection : String
  related_collection : Option String
  meta : Option RelationMeta
deriving DecidableEq

/-- `[rel.meta?.one_field, rel.meta?.many_field].includes(key)`
(utils.ts line 90). -/
def relMatchesKey (rel : Relation) (key : String) : Bool :=
  match rel.meta with
  | some m => m.one_field == some key || m.many_field == some key
  | none => false

/-- The fixed context of one `useDeepValues` session.  The remote API
client and the stores are external collaborators of the module and are
modelled abstractly, as the design document directs: `fieldRead collection
pk field` is `(GET items/{collection}/{pk}?fields=[field]).data.data[field]`
(the baseline read, utils.ts 138-142) and `itemsFetch collection id` is the
entity the filtered `GET` (utils.ts 171-173) returns for a requested id
(the responses of `fetchMany` are "entity records keyed by id", so the
by-filter read is modelled as one entity per requested id, in request
order). -/
structure Env where
  relations : List Relation
  collection : String
  computedField : String
  pk : JVal
  template : String
  currentUser : JVal
  fieldRead : String → JVal → String → JVal
  itemsFetch : String → JVal → JVal

/-- The two caches of the engine (utils.ts 62-63).  `itemCache` is keyed by
collection and then by the JS string coercion of the entity id
(`jvalKey`). -/
structure Caches where
  fieldCache : List (String × JVal)
  itemCache : List (String × List (String × JVal))
deriving DecidableEq

def emptyCaches : Caches := ⟨[], []⟩

/-- The `?? { create: [], update: [], delete: [] }` default
(utils.ts 99-103). -/
def defaultMutation : JVal :=
  .obj [("create", .arr []), ("update", .arr []), ("delete", .arr [])]

/-- `'id' in fieldChanges` (utils.ts 119): own-property test; an array has
no own `id` property. -/
def hasIdProp : JVal → Bool
  | .obj kvs => hasA kvs "id"
  | _ => false

/-- The many-to-one normalization of the raw field value (utils.ts
108-124): a scalar becomes an update by id, an object-typed value with an
`id` key becomes an update, any other object-typed value becomes a create
of its spread clone; other primitives (booleans) pass through unchanged.
(The cache-clearing side condition of the scalar branch is `m2oClears`;
the input is never `null`/`undefined` because those were replaced by
`defaultMutation`.) -/
def normalizeM2O (fc0 : JVal) : JVal :=
  if isScalar fc0 then .obj [("update", .arr [.obj [("id", fc0)]])]
  else if typeofIsObject fc0 then
    if hasIdProp fc0 then .obj [("update", .arr [fc0])]
    else .obj [("create", .arr [spreadClone fc0])]
  else fc0

/-- Cache reset condition of the many-to-one scalar branch (utils.ts
112-117): current raw value scalar and previous raw value object-typed. -/
def m2oClears (fc0 oldRaw : JVal) : Bool :=
  isScalar fc0 && typeofIsObject oldRaw

/-- Cache reset condition of the one-to-many branch (utils.ts 126-131):
current raw value an array and previous raw value not an array. -/
def o2mClears (fc0 oldRaw : JVal) : Bool :=
  fc0.isArr && !oldRaw.isArr

/-- Baseline read for a one-to-many field (utils.ts 133-146): memoized in
FieldCache by field name; returns the updated caches, the number of api
calls (0 on a cache hit), and the raw baseline data. -/
def baselineRead (env : Env) (c : Caches) (pkFinal : JVal) (key : String) :
    Caches × Nat × JVal :=
  match getA c.fieldCache key with
  | some d => (c, 0, d)
  | none =>
    let d := env.fieldRead env.collection pkFinal key
    ({ c with fieldCache := setA c.fieldCache key d }, 1, d)

/-- `fieldChanges.update.map(({id}) => id)` (utils.ts 149). -/
def updateIds (fieldChanges : JVal) : List JVal :=
  (asArr (fieldChanges.getProp "update")).map (fun u => u.getProp "id")

/-- The one-to-many baseline filters (utils.ts 148-155): drop baseline ids
that occur in the update list, then those that occur in the delete list. -/
def filterBaseline (fieldChanges : JVal) (ids : List JVal) : List JVal :=
  let ids1 :=
    if truthy (fieldChanges.getProp "update") then
      ids.filter (fun id => !(updateIds fieldChanges).contains id)
    else ids
  if truthy (fieldChanges.getProp "delete") then
    ids1.filter (fun id => !(asArr (fieldChanges.getProp "delete")).contains id)
  else ids1

/-- The common update-id concat (utils.ts 158-160). -/
def concatUpdateIds (fieldChanges : JVal) (ids : List JVal) : List JVal :=
  if truthy (fieldChanges.getProp "update") then ids ++ updateIds fieldChanges else ids

/-- The ItemCache writes performed by the `data.map` callback: every
item of the response is stored under the string coercion of its own id
(utils.ts 177-183). -/
def writeItems (rc : String) (items : List JVal) (c : Caches) : Caches :=
  items.foldl
    (fun c item =>
      let m := (getA c.itemCache rc).getD []
      { c with itemCache := setA c.itemCache rc (setA m (jvalKey (item.getProp "id")) item) })
    c

/-- The merged entity for one fetched item:
`{...item, ...fieldChanges.update?.find(({id}) => item.id === id)}`
(utils.ts 184-187). -/
def mergeItem (fieldChanges item : JVal) : JVal :=
  jsMerge item
    (((asArr (fieldChanges.getProp "update")).find?
        (fun u => item.getProp "id" == u.getProp "id")).getD JVal.undef)

/-- Entity resolution for the collected ids (utils.ts 162-190): when every
id is already present in ItemCache for the related collection the network
call is skipped and the cache is read, otherwise one filtered fetch is
made; either way the response items are written (back) into ItemCache and
merged with their update-list entry.  The source interleaves the cache
write inside the same `data.map` that builds the merged array; the write
never affects the mapped values (`data` is a pre-computed snapshot), so
the two are stated separately. -/
def resolveItems (env : Env) (c : Caches) (isM2O : Bool) (rel : Relation)
    (fieldChanges : JVal) (ids : List JVal) : Caches × Nat × List JVal :=
  if ids.isEmpty then (c, 0, [])
  else
    match if isM2O then rel.related_collection else some rel.collection with
    | none => (c, 0, [])
    | some rc =>
      if rc = "" then (c, 0, [])
      else
        let cached := (getA c.itemCache rc).getD []
        let hit := (getA c.itemCache rc).isSome
          && ids.all (fun id => hasA cached (jvalKey id))
        let dn : List JVal × Nat :=
          if hit then (ids.map (fun id => Obj.get cached (jvalKey id)), 0)
          else (ids.map (fun id => env.itemsFetch rc id), 1)
        (writeItems rc dn.1 c, dn.2, dn.1.map (fun item => mergeItem fieldChanges item))

/-- `fieldChanges.create` is concatenated after the request
(utils.ts 192-195). -/
def appendCreate (fieldChanges : JVal) (xs : List JVal) : List JVal :=
  if truthy (fieldChanges.getProp "create") then xs ++ asArr (fieldChanges.getProp "create")
  else xs

/-- Per-field resolution (utils.ts 89-198, one iteration of the key loop):
returns the caches after the iteration, the number of api calls it made,
and `some v` when the key is a template-referenced relational field and
the loop assigns `relationalData[key] = v`. -/
def processKey (env : Env) (c : Caches) (valObj oldValObj : Obj) (pkFinal : JVal)
    (key : String) : Caches × Nat × Option JVal :=
  match env.relations.find? (fun rel => relMatchesKey rel key) with
  | none => (c, 0, none)
  | some rel =>
    if !checkFieldInTemplate env.template key then (c, 0, none)
    else
      let isM2O := rel.collection == env.collection
      -- `valObj[fieldName!]`: when the picked meta field is undefined the
      -- JS read coerces it to the property name "undefined"
      let fieldName := (if isM2O then rel.meta.bind (fun m => m.many_field)
                        else rel.meta.bind (fun m => m.one_field)).getD "undefined"
      let raw := Obj.get valObj fieldName
      let fc0 := if raw == JVal.undef || raw == .null then defaultMutation else raw
      if isM2O then
        let c1 := if m2oClears fc0 (Obj.get oldValObj key) then emptyCaches else c
        let fieldChanges := normalizeM2O fc0
        let ids := concatUpdateIds fieldChanges []
        let (c2, n2, arrayOfData) := resolveItems env c1 true rel fieldChanges ids
        (c2, n2, some ((appendCreate fieldChanges arrayOfData).headD JVal.undef))
      else
        let c1 := if o2mClears fc0 (Obj.get oldValObj key) then emptyCaches else c
        let fieldChanges := fc0
        let bl : Caches × Nat × List JVal :=
          if pkFinal != .str "+" then
            let (c2, n1, data) := baselineRead env c1 pkFinal key
            (c2, n1, jsConcat [] data)
          else (c1, 0, [])
        let ids := concatUpdateIds fieldChanges (filterBaseline fieldChanges bl.2.2)
        let (c3, n2, arrayOfData) := resolveItems env bl.1 false rel fieldChanges ids
        (c3, bl.2.1 + n2, some (.arr (appendCreate fieldChanges arrayOfData)))

/-- The removed-key loop (utils.ts 80-84): every key of the previous
record that is absent from the current one is added with value `null`. -/
def fillRemovedKeys (valObj oldValObj : Obj) : Obj :=
  oldValObj.foldl (fun m p => if hasA m p.1 then m else m ++ [(p.1, JVal.null)]) valObj

/-- One iteration of the key loop as seen by the accumulator
(caches, api-call count, `relationalData`). -/
def foldStep (env : Env) (v oldValObj : Obj) (pkFinal : JVal)
    (acc : Caches × Nat × Obj) (key : String) : Caches × Nat × Obj :=
  match processKey env acc.1 v oldValObj pkFinal key with
  | (c2, n2, some x) => (c2, acc.2.1 + n2, setA acc.2.2 key x)
  | (c2, n2, none) => (c2, acc.2.1 + n2, acc.2.2)

/-- One invocation of the watch callback of `useDeepValues`
(utils.ts 71-206), on already-parsed records.  `oldVal = none` models the
`immediate: true` first call, where `oldVal === undefined` parses to `{}`
(utils.ts 75).  Returns the caches after the call, the number of api calls
made, and `some emitted` when the handler assigns `finalValues.value`
(`none` when the `shouldUpdate` gate returns early and the previous value
stays). -/
def runHandler (env : Env) (c : Caches) (valObj : Obj) (oldVal : Option Obj) :
    Caches × Nat × Option Obj :=
  let oldValObj := oldVal.getD []
  if !shouldUpdate env.template env.computedField valObj oldValObj then (c, 0, none)
  else
    let v := fillRemovedKeys valObj oldValObj
    let pkFinal := if truthy (Obj.get v "id") then Obj.get v "id" else env.pk
    let step := (v.map Prod.fst).foldl (foldStep env v oldValObj pkFinal) (c, 0, ([] : Obj))
    (step.1, step.2.1, some (setA (spreadJS v step.2.2) "__currentUser" env.currentUser))

/-! ## Concrete test environments -/

/-- Edited collection `books` with a one-to-many field `notes` (the
relation lives on collection `notes`, whose `one_field` is `notes` and
whose `many_field` is `book_id`); the template references `notes`, the
computed field is `comp`, the record's primary key is `10`, the remote
baseline for any field is `[1, 2, 3]` and every entity fetch returns
`{id, title: "old"}`. -/
def envBooks : Env := {
  relations := [⟨"notes", some "books", some ⟨some "notes", some "book_id"⟩⟩]
  collection := "books"
  computedField := "comp"
  pk := .num 10
  template := "{{notes}}"
  currentUser := .null
  fieldRead := fun _ _ _ => .arr [.num 1, .num 2, .num 3]
  itemsFetch := fun _ id => .obj [("id", id), ("title", .str "old")] }

/-- Edited collection `books` with a many-to-one field `author` related to
collection `authors`; every entity fetch returns `{id, name: "bob"}`. -/
def envAuthors : Env := {
  relations := [⟨"books", some "authors", some ⟨none, some "author"⟩⟩]
  collection := "books"
  computedField := "comp"
  pk := .num 10
  template := "{{author}}"
  currentUser := .null
  fieldRead := fun _ _ _ => .arr []
  itemsFetch := fun _ id => .obj [("id", id), ("name", .str "bob")] }

/-! ## Path lookup (`findValueByPath`, utils.ts lines 211-221) -/

/-- Outcome of `findValueByPath`: a result object, or a thrown `TypeError`
(the JS `in` operator throws when its right operand is a primitive). -/
inductive PathOutcome where
  | ok (value : JVal) (found : Bool)
  | typeError
deriving DecidableEq

/-- Parse a non-empty all-digit string (array-index candidate); the
canonical-form check `toString i = s` in `findValueSegs` rejects leading
zeros, as the JS `in` operator does on arrays. -/
def parseDigits (ds : List Char) : Option Nat :=
  if ds ≠ [] && ds.all (fun c => c.isDigit) then
    some (ds.foldl (fun n c => n * 10 + (c.toNat - 48)) 0)
  else none

/-- One step of the lookup loop: `i in value` and `value[i]`.  The `in`
operator succeeds on own properties of objects and on canonical indices
and `length` for arrays, and throws a `TypeError` on primitives
(including `null`). -/
def findValueSegs : List String → JVal → PathOutcome
  | [], v => .ok v true
  | s :: rest, v =>
    match v with
    | .obj kvs =>
      if hasA kvs s then findValueSegs rest (Obj.get kvs s)
      else .ok .null false
    | .arr xs =>
      if s = "length" then findValueSegs rest (.num xs.length)
      else
        match parseDigits s.data with
        | some i =>
          if h : toString i = s ∧ i < xs.length then findValueSegs rest (xs.get ⟨i, h.2⟩)
          else .ok .null false
        | none => .ok .null false
    | _ => .typeError

/-- `path.split('.')` (JS splitting with a one-character separator):
accumulates the current segment and cuts at every dot. -/
def splitDotAux (cur : List Char) : List Char → List String
  | [] => [String.mk cur.reverse]
  | c :: rest =>
    if c = '.' then String.mk cur.reverse :: splitDotAux [] rest
    else splitDotAux (c :: cur) rest

/-- `findValueByPath` (utils.ts lines 211-221): iterate over the dotted
segments of `path`. -/
def findValueByPath (o : Obj) (path : String) : PathOutcome :=
  findValueSegs (splitDotAux [] path.data) (.obj o)

/-! ## Generic association-map lemmas -/

/-- Left-biased choice on options (used to state lookup laws). -/
def orO {α : Type} : Option α → Option α → Option α
  | some v, _ => some v
  | none, o => o

theorem orO_none {α : Type} (o : Option α) : orO o none = o := by cases o <;> rfl

theorem orO_none_left {α : Type} (o : Option α) : orO none o = o := rfl

theorem orO_assoc {α : Type} (a b c : Option α) : orO (orO a b) c = orO a (orO b c) := by
  cases a <;> rfl

theorem getA_nil {α : Type} (k : String) : getA ([] : List (String × α)) k = none := rfl

theorem getA_cons {α : Type} (p : String × α) (m : List (String × α)) (k : String) :
    getA (p :: m) k = if p.1 = k then some p.2 else getA m k := by
  by_cases h : p.1 = k
  · simp [getA, List.find?_cons_of_pos, h]
  · simp [getA, List.find?_cons_of_neg, h]

theorem getA_append {α : Type} (m1 m2 : List (String × α)) (k : String) :
    getA (m1 ++ m2) k = orO (getA m1 k) (getA m2 k) := by
  induction m1 with
  | nil => simp [getA_nil, orO]
  | cons p m ih =>
    by_cases h : p.1 = k <;> simp [getA_cons, h, ih, orO]

theorem hasA_eq {α : Type} (m : List (String × α)) (k : String) :
    hasA m k = (getA m k).isSome := by
  simp [hasA, getA]

theorem getA_mapReplace_ne {α : Type} (m : List (String × α)) (a k : String) (v : α)
    (hne : a ≠ k) :
    getA (m.map (fun p => if p.1 == a then (a, v) else p)) k = getA m k := by
  induction m with
  | nil => rfl
  | cons p m ih =>
    simp only [List.map_cons]
    by_cases hp : (p.1 == a) = true
    · rw [if_pos hp, getA_cons, getA_cons]
      have hpa : p.1 = a := beq_iff_eq.mp hp
      have hpk : p.1 ≠ k := by rw [hpa]; exact hne
      rw [if_neg hne, if_neg hpk, ih]
    · rw [if_neg hp, getA_cons, getA_cons, ih]

theorem getA_mapReplace_self {α : Type} (m : List (String × α)) (a : String) (v : α)
    (h : hasA m a = true) :
    getA (m.map (fun p => if p.1 == a then (a, v) else p)) a = some v := by
  induction m with
  | nil => simp [hasA] at h
  | cons p m ih =>
    simp only [List.map_cons]
    by_cases hp : (p.1 == a) = true
    · rw [if_pos hp, getA_cons]
      simp
    · rw [if_neg hp, getA_cons]
      have hpa : p.1 ≠ a := by simpa using hp
      simp only [hpa, if_false]
      apply ih
      unfold hasA at h ⊢
      rwa [List.find?_cons_of_neg _ (by simpa using hp)] at h

theorem getA_setA {α : Type} (m : List (String × α)) (a k : String) (v : α) :
    getA (setA m a v) k = if a = k then some v else getA m k := by
  unfold setA
  split
  · rename_i h
    by_cases hak : a = k
    · subst hak
      rw [getA_mapReplace_self m a v h, if_pos rfl]
    · rw [getA_mapReplace_ne m a k v hak, if_neg hak]
  · rename_i h
    rw [getA_append]
    by_cases hak : a = k
    · subst hak
      have : getA m a = none := by
        rw [hasA_eq] at h
        exact Option.not_isSome_iff_eq_none.mp (by simp [h])
      simp [this, getA_cons, orO]
    · simp [getA_cons, getA_nil, hak, orO_none]

/-- The last binding of a key in an association list (JS "later spread
entries win"). -/
def lastA {α : Type} (m : List (String × α)) (k : String) : Option α :=
  getA m.reverse k

theorem getA_foldSet {α : Type} (l init : List (String × α)) (k : String) :
    getA (l.foldl (fun m p => setA m p.1 p.2) init) k = orO (lastA l k) (getA init k) := by
  induction l generalizing init with
  | nil => simp [lastA, getA_nil, orO_none_left]
  | cons p l ih =>
    simp only [List.foldl_cons]
    rw [ih]
    simp only [lastA, List.reverse_cons]
    rw [getA_append, orO_assoc, getA_setA]
    by_cases h : p.1 = k <;> simp [getA_cons, getA_nil, h, orO, orO_none]

theorem getA_spreadJS (a b : Obj) (k : String) :
    getA (spreadJS a b) k = orO (lastA b k) (lastA a k) := by
  unfold spreadJS
  rw [getA_foldSet, getA_foldSet]
  simp [getA_nil, orO_none]

/-! ## Claims -/

theorem containsSub_iff_infix {hay needle : List Char} :
    containsSub hay needle = true ↔ needle <:+: hay := by
  unfold containsSub
  rw [List.any_eq_true]
  constructor
  · rintro ⟨i, _, hpre⟩
    obtain ⟨t, ht⟩ := List.isPrefixOf_iff_prefix.mp hpre
    refine ⟨hay.take i, t, ?_⟩
    rw [List.append_assoc, ht, List.take_append_drop]
  · rintro ⟨s, t, hst⟩
    refine ⟨s.length, List.mem_range.mpr ?_, ?_⟩
    · have hl : (s ++ needle ++ t).length = hay.length := by rw [hst]
      simp only [List.length_append] at hl
      omega
    · rw [List.isPrefixOf_iff_prefix]
      refine ⟨t, ?_⟩
      rw [← hst, List.append_assoc, List.drop_left]

/-- C8: `checkFieldInTemplate template field` is true exactly when the
field name occurs as a substring of some match of the non-greedy pattern
`{{.*?}}` in the template; in particular the test is a plain substring
test, not a token-boundary test, so the field `name` is referenced by the
template `{{username}}`. -/
theorem c8_template_substring_matching :
    (∀ T f : String, checkFieldInTemplate T f = true ↔
        ∃ m ∈ extractPlaceholders T.data, f.data <:+: m)
    ∧ checkFieldInTemplate "{{username}}" "name" = true := by
  refine ⟨fun T f => ?_, by decide⟩
  unfold checkFieldInTemplate
  rw [List.any_eq_true]
  exact ⟨fun ⟨m, hm, hc⟩ => ⟨m, hm, containsSub_iff_infix.mp hc⟩,
         fun ⟨m, hm, hi⟩ => ⟨m, hm, containsSub_iff_infix.mpr hi⟩⟩

/-- A value the JS `in` operator accepts as right operand (arrays and
plain objects). -/
def isContainer : JVal → Bool
  | .obj _ => true
  | .arr _ => true
  | _ => false

/-- The descents of `findValueSegs` that reach a non-container value with
segments remaining — exactly the lookups on which the JS `in` operator
throws a `TypeError`. -/
inductive SegsToPrim : List String → JVal → Prop
  | prim {s : String} {rest : List String} {v : JVal}
      (hv : isContainer v = false) : SegsToPrim (s :: rest) v
  | objStep {kvs : Obj} {s : String} {rest : List String}
      (hk : hasA kvs s = true) (h : SegsToPrim rest (Obj.get kvs s)) :
      SegsToPrim (s :: rest) (.obj kvs)
  | arrLength {xs : List JVal} {rest : List String}
      (h : SegsToPrim rest (.num xs.length)) :
      SegsToPrim ("length" :: rest) (.arr xs)
  | arrIdx {xs : List JVal} {s : String} {rest : List String} (i : Nat)
      (hne : s ≠ "length") (hp : parseDigits s.data = some i) (hc : toString i = s)
      (hlt : i < xs.length) (h : SegsToPrim rest (xs.get ⟨i, hlt⟩)) :
      SegsToPrim (s :: rest) (.arr xs)

theorem findValueSegs_typeError_iff : ∀ (segs : List String) (v : JVal),
    findValueSegs segs v = .typeError ↔ SegsToPrim segs v := by
  intro segs
  induction segs with
  | nil =>
    intro v
    constructor
    · intro h
      simp [findValueSegs] at h
    · intro h
      cases h
  | cons s rest ih =>
    intro v
    cases v with
    | obj kvs =>
      simp only [findValueSegs]
      by_cases hk : hasA kvs s = true
      · rw [if_pos hk]
        constructor
        · intro h
          exact SegsToPrim.objStep hk ((ih _).mp h)
        · intro h
          cases h with
          | prim hv => simp [isContainer] at hv
          | objStep hk2 h2 => exact (ih _).mpr h2
      · rw [if_neg hk]
        constructor
        · intro h
          cases h
        · intro h
          cases h with
          | prim hv => simp [isContainer] at hv
          | objStep hk2 h2 => exact absurd hk2 hk
    | arr xs =>
      simp only [findValueSegs]
      by_cases hs : s = "length"
      · rw [if_pos hs]
        subst hs
        constructor
        · intro h
          exact SegsToPrim.arrLength ((ih _).mp h)
        · intro h
          cases h with
          | prim hv => simp [isContainer] at hv
          | arrLength h2 => exact (ih _).mpr h2
          | arrIdx i hne hp hc hlt h2 => exact absurd rfl hne
      · rw [if_neg hs]
        constructor
        · intro h
          split at h
          · rename_i i hp
            split at h
            · rename_i hci
              exact SegsToPrim.arrIdx i hs hp hci.1 hci.2 ((ih _).mp h)
            · cases h
          · cases h
        · intro h
          cases h with
          | prim hv => simp [isContainer] at hv
          | arrLength h2 => exact absurd rfl hs
          | arrIdx i hne hp hc hlt h2 =>
            simp only [hp]
            rw [dif_pos ⟨hc, hlt⟩]
            exact (ih _).mpr h2
    | undef => exact ⟨fun _ => SegsToPrim.prim rfl, fun _ => rfl⟩
    | null => exact ⟨fun _ => SegsToPrim.prim rfl, fun _ => rfl⟩
    | bool b => exact ⟨fun _ => SegsToPrim.prim rfl, fun _ => rfl⟩
    | num n => exact ⟨fun _ => SegsToPrim.prim rfl, fun _ => rfl⟩
    | str t => exact ⟨fun _ => SegsToPrim.prim rfl, fun _ => rfl⟩

theorem findValueSegs_not_found_null : ∀ (segs : List String) (v w : JVal),
    findValueSegs segs v = .ok w false → w = .null := by
  intro segs
  induction segs with
  | nil =>
    intro v w h
    simp [findValueSegs] at h
  | cons s rest ih =>
    intro v w h
    cases v with
    | obj kvs =>
      simp only [findValueSegs] at h
      by_cases hk : hasA kvs s = true
      · rw [if_pos hk] at h
        exact ih _ _ h
      · rw [if_neg hk] at h
        cases h
        rfl
    | arr xs =>
      simp only [findValueSegs] at h
      by_cases hs : s = "length"
      · rw [if_pos hs] at h
        exact ih _ _ h
      · rw [if_neg hs] at h
        split at h
        · split at h
          · exact ih _ _ h
          · cases h
            rfl
        · cases h
          rfl
    | undef => cases h
    | null => cases h
    | bool b => cases h
    | num n => cases h
    | str t => cases h

/-- C9 counterexample: descending a dotted path into a primitive value
(`{a: 5}` with path `"a.b"`) makes `findValueByPath` throw a `TypeError`
(`'b' in 5` is a JS type error), so the lookup does not always return the
not-found sentinel. -/
theorem c9_counterexample_path_throws :
    findValueByPath [("a", JVal.num 5)] "a.b" = .typeError := by decide

/-- C9 (amended): `findValueByPath` throws a `TypeError` exactly when the
descent reaches a non-container value with path segments remaining; in
every other case it returns a result object, and every not-found result
carries the sentinel value `null`. -/
theorem c9_path_lookup_characterization :
    (∀ (o : Obj) (path : String),
        findValueByPath o path = .typeError ↔
          SegsToPrim (splitDotAux [] path.data) (.obj o))
    ∧ (∀ (segs : List String) (v w : JVal),
        findValueSegs segs v = .ok w false → w = .null) :=
  ⟨fun o path => findValueSegs_typeError_iff (splitDotAux [] path.data) (.obj o),
   findValueSegs_not_found_null⟩

theorem c9_path_lookup_characterization_witness : JVal.null = JVal.null :=
  c9_path_lookup_characterization.2 ["b"] (.obj [("a", .num 5)]) .null (by decide)

/-- C10: the changed-field list of `shouldUpdate` never contains the
computed field itself; consequently, when the two records agree at every
key other than the computed field, the changed set is empty and the
empty-set policy makes `shouldUpdate` return true regardless of the
template. -/
theorem c10_computed_field_self_exclusion :
    (∀ (cf : String) (val old : Obj) (k : String), k ∈ changedFields cf val old → k ≠ cf)
    ∧ (∀ (t cf : String) (val old : Obj),
        (∀ k, k ≠ cf → Obj.get val k = Obj.get old k) →
        shouldUpdate t cf val old = true) := by
  constructor
  · intro cf val old k hk
    have hp := List.of_mem_filter hk
    simp only [Bool.and_eq_true, bne_iff_ne, ne_eq] at hp
    exact hp.1
  · intro t cf val old h
    have hcf : changedFields cf val old = [] := by
      unfold changedFields
      rw [List.filter_eq_nil_iff]
      intro k _
      by_cases hkc : k = cf
      · simp [hkc]
      · simp [hkc, h k hkc]
    simp [shouldUpdate, hcf]

theorem shouldUpdate_eq_true_iff (t cf : String) (val old : Obj) :
    shouldUpdate t cf val old = true ↔
      (changedFields cf val old = [] ∨
       ∃ k ∈ changedFields cf val old, checkFieldInTemplate t k = true) := by
  unfold shouldUpdate
  by_cases h : changedFields cf val old = []
  · simp [h]
  · have hne : (changedFields cf val old).isEmpty = false := by
      simpa [List.isEmpty_iff] using h
    simp [hne, h, List.any_eq_true]

/-- C3 counterexample: on the first invocation (no previous value) with a
nonempty initial record none of whose fields is referenced by the
template, the gate fails and the handler emits nothing — the code has no
first-invocation special case, so recomputation is not unconditional. -/
theorem c3_counterexample_first_invocation_skipped :
    runHandler envBooks emptyCaches [("title", .str "x")] none =
      (emptyCaches, 0, none) := by decide

/-- C3 (amended): on the first invocation the engine applies the ordinary
gate against an empty previous record: it recomputes and emits a record
iff the initial record has no changed non-computed fields (then the
empty-set policy applies) or at least one changed field is referenced in
the template.  An empty initial record therefore always recomputes, but a
nonempty one whose fields are all unreferenced is skipped. -/
theorem c3_first_invocation_gate (env : Env) (c : Caches) (val : Obj) :
    (runHandler env c val none).2.2.isSome = true ↔
      (changedFields env.computedField val [] = [] ∨
       ∃ k ∈ changedFields env.computedField val [],
         checkFieldInTemplate env.template k = true) := by
  rw [← shouldUpdate_eq_true_iff]
  by_cases h : shouldUpdate env.template env.computedField val [] = true
  · simp [runHandler, h]
  · have h' : shouldUpdate env.template env.computedField val [] = false := by
      simpa using h
    simp [runHandler, h']

/-- C5 counterexample: a non-first trigger in which the only field whose
serialized value changed is the computed field itself (which is
unreferenced in the template).  The claim's precondition holds — every
changed field is unreferenced — yet the engine recomputes (the gate's
changed set excludes the computed field, so the empty-set policy fires)
and performs two remote fetches. -/
theorem c5_counterexample_unreferenced_change_still_fetches :
    (((spreadJS [("comp", JVal.num 1), ("notes", JVal.null)]
          [("comp", JVal.num 2), ("notes", JVal.null)]).map Prod.fst).filter
        (fun k => Obj.get [("comp", JVal.num 2), ("notes", JVal.null)] k
          != Obj.get [("comp", JVal.num 1), ("notes", JVal.null)] k) = ["comp"])
    ∧ checkFieldInTemplate "{{notes}}" "comp" = false
    ∧ (runHandler envBooks emptyCaches [("comp", JVal.num 2), ("notes", JVal.null)]
        (some [("comp", JVal.num 1), ("notes", JVal.null)])).2.1 = 2 := by decide

/-- C5 (amended): for every non-first trigger in which at least one
non-computed field changed and every such changed field is unreferenced in
the template, the handler returns early: no fetch, caches untouched, no
new emission.  (The original claim fails when the serialized change is
confined to the computed field: that field is excluded from the gate's
changed set, the set comes out empty, and the empty-set policy recomputes
— with fetches.) -/
theorem c5_unreferenced_skip (env : Env) (c : Caches) (val old : Obj)
    (hne : changedFields env.computedField val old ≠ [])
    (hunref : ∀ k ∈ changedFields env.computedField val old,
      checkFieldInTemplate env.template k = false) :
    runHandler env c val (some old) = (c, 0, none) := by
  have h1 : (changedFields env.computedField val old).isEmpty = false := by
    simpa [List.isEmpty_iff] using hne
  have hgate : shouldUpdate env.template env.computedField val old = false := by
    unfold shouldUpdate
    simp only [h1, Bool.false_eq_true, if_false, List.any_eq_false]
    intro k hk
    simp [hunref k hk]
  simp [runHandler, hgate]

theorem c5_unreferenced_skip_witness :
    runHandler envBooks emptyCaches [("title", JVal.str "y")]
      (some [("title", JVal.str "x")]) = (emptyCaches, 0, none) :=
  c5_unreferenced_skip envBooks emptyCaches _ _ (by decide) (by decide)

theorem hasA_iff_exists {α : Type} (m : List (String × α)) (k : String) :
    hasA m k = true ↔ ∃ p ∈ m, p.1 = k := by
  unfold hasA
  rw [List.find?_isSome]
  simp

theorem getA_eq_none_of_not_mem {α : Type} (m : List (String × α)) (k : String)
    (h : ∀ p ∈ m, p.1 ≠ k) : getA m k = none := by
  unfold getA
  rw [List.find?_eq_none.mpr]
  · rfl
  · intro p hp
    simp [h p hp]

theorem getA_eq_of_all {α : Type} (m : List (String × α)) (k : String) (x : α)
    (hmem : hasA m k = true) (hall : ∀ p ∈ m, p.1 = k → p.2 = x) :
    getA m k = some x := by
  unfold hasA at hmem
  unfold getA
  cases hf : m.find? (fun p => p.1 == k) with
  | none => rw [hf] at hmem; simp at hmem
  | some p =>
    have hpm := List.mem_of_find?_eq_some hf
    have hpk := List.find?_some hf
    simp only [beq_iff_eq] at hpk
    simp [hall p hpm hpk]

theorem lastA_eq_none_of_not_mem {α : Type} (m : List (String × α)) (k : String)
    (h : ∀ p ∈ m, p.1 ≠ k) : lastA m k = none :=
  getA_eq_none_of_not_mem _ _ (fun p hp => h p (List.mem_reverse.mp hp))

theorem lastA_eq_of_all {α : Type} (m : List (String × α)) (k : String) (x : α)
    (hmem : hasA m k = true) (hall : ∀ p ∈ m, p.1 = k → p.2 = x) :
    lastA m k = some x := by
  apply getA_eq_of_all
  · rw [hasA_iff_exists] at hmem ⊢
    obtain ⟨p, hp, he⟩ := hmem
    exact ⟨p, List.mem_reverse.mpr hp, he⟩
  · intro p hp hk
    exact hall p (List.mem_reverse.mp hp) hk

theorem hasA_append_left {α : Type} (m e : List (String × α)) (k : String)
    (h : hasA m k = true) : hasA (m ++ e) k = true := by
  rw [hasA_iff_exists] at h ⊢
  obtain ⟨p, hp, he⟩ := h
  exact ⟨p, List.mem_append_left e hp, he⟩

theorem fillRemovedKeys_parts : ∀ (old : List (String × JVal)) (val : Obj),
    ∃ extra, fillRemovedKeys val old = val ++ extra ∧ ∀ p ∈ extra, p.2 = JVal.null := by
  intro old
  induction old with
  | nil => intro val; exact ⟨[], by simp [fillRemovedKeys], by simp⟩
  | cons q rest ih =>
    intro val
    unfold fillRemovedKeys
    simp only [List.foldl_cons]
    by_cases hq : hasA val q.1 = true
    · rw [if_pos hq]
      exact ih val
    · rw [if_neg hq]
      obtain ⟨e, he, hv⟩ := ih (val ++ [(q.1, JVal.null)])
      refine ⟨(q.1, JVal.null) :: e, ?_, ?_⟩
      · unfold fillRemovedKeys at he
        rw [he, List.append_assoc]
        rfl
      · intro p hp
        rcases List.mem_cons.mp hp with hp | hp
        · rw [hp]
        · exact hv p hp

theorem fillRemovedKeys_hasA : ∀ (old : List (String × JVal)) (val : Obj) (k : String),
    (hasA old k = true ∨ hasA val k = true) →
    hasA (fillRemovedKeys val old) k = true := by
  intro old
  induction old with
  | nil =>
    intro val k h
    rcases h with h | h
    · simp [hasA] at h
    · exact h
  | cons q rest ih =>
    intro val k h
    unfold fillRemovedKeys
    simp only [List.foldl_cons]
    have hstep : ∀ val' : Obj,
        rest.foldl (fun m p => if hasA m p.1 then m else m ++ [(p.1, JVal.null)]) val'
          = fillRemovedKeys val' rest := fun _ => rfl
    rw [hstep]
    by_cases hqv : hasA val q.1 = true
    · rw [if_pos hqv]
      apply ih
      rcases h with h | h
      · rw [hasA_iff_exists] at h
        obtain ⟨p, hp, he⟩ := h
        rcases List.mem_cons.mp hp with hp | hp
        · right
          rw [← he, hp]
          exact hqv
        · left
          exact (hasA_iff_exists rest k).mpr ⟨p, hp, he⟩
      · right
        exact h
    · rw [if_neg hqv]
      apply ih
      rcases h with h | h
      · rw [hasA_iff_exists] at h
        obtain ⟨p, hp, he⟩ := h
        rcases List.mem_cons.mp hp with hp | hp
        · right
          rw [hasA_iff_exists]
          exact ⟨(q.1, JVal.null), by simp, by rw [← he, hp]⟩
        · left
          exact (hasA_iff_exists rest k).mpr ⟨p, hp, he⟩
      · right
        exact hasA_append_left _ _ _ h

theorem processKey_none (env : Env) (c : Caches) (valObj oldValObj : Obj) (pk : JVal)
    (k : String)
    (h : env.relations.find? (fun rel => relMatchesKey rel k) = none ∨
         checkFieldInTemplate env.template k = false) :
    processKey env c valObj oldValObj pk k = (c, 0, none) := by
  unfold processKey
  rcases h with h | h
  · rw [h]
  · cases hf : env.relations.find? (fun rel => relMatchesKey rel k) with
    | none => rfl
    | some rel => simp [h]

theorem mem_setA_keys {α : Type} (m : List (String × α)) (a : String) (v : α)
    (p : String × α) (hp : p ∈ setA m a v) : p.1 = a ∨ ∃ q ∈ m, p.1 = q.1 := by
  unfold setA at hp
  split at hp
  · obtain ⟨q, hq, he⟩ := List.mem_map.mp hp
    by_cases hqa : (q.1 == a) = true
    · rw [if_pos hqa] at he
      left
      rw [← he]
    · rw [if_neg hqa] at he
      right
      exact ⟨q, hq, by rw [← he]⟩
  · rcases List.mem_append.mp hp with hp | hp
    · exact Or.inr ⟨p, hp, rfl⟩
    · left
      simp only [List.mem_singleton] at hp
      rw [hp]

theorem foldStep_no_new_key (env : Env) (v oldValObj : Obj) (pk : JVal) (k : String)
    (hk : env.relations.find? (fun rel => relMatchesKey rel k) = none ∨
          checkFieldInTemplate env.template k = false) :
    ∀ (keys : List String) (acc : Caches × Nat × Obj),
      (∀ p ∈ acc.2.2, p.1 ≠ k) →
      ∀ p ∈ (keys.foldl (foldStep env v oldValObj pk) acc).2.2, p.1 ≠ k := by
  intro keys
  induction keys with
  | nil => intro acc h; exact h
  | cons key rest ih =>
    intro acc h
    simp only [List.foldl_cons]
    apply ih
    unfold foldStep
    by_cases hkey : key = k
    · subst hkey
      rw [processKey_none env acc.1 v oldValObj pk key hk]
      exact h
    · rcases hpk : processKey env acc.1 v oldValObj pk key with ⟨c2, n2, xo⟩
      cases xo with
      | none => simp only [hpk]; exact h
      | some x =>
        simp only [hpk]
        intro p hp
        rcases mem_setA_keys acc.2.2 key x p hp with he | ⟨q, hq, he⟩
        · rw [he]; exact hkey
        · rw [he]; exact h q hq

/-- C6 counterexample: the key `notes` is present in the previous record
and absent from the new one, but — being a template-referenced relational
field — the emitted record binds it to the resolved relational array, not
to `null` (the `relationalData` spread overwrites the null filled in by
the removed-key loop). -/
theorem c6_counterexample_removed_relational_key_not_null :
    hasA [("x", JVal.num 1), ("notes", JVal.arr [])] "notes" = true
    ∧ hasA [("x", JVal.num 1)] "notes" = false
    ∧ (runHandler envBooks emptyCaches [("x", JVal.num 1)]
        (some [("x", JVal.num 1), ("notes", JVal.arr [])])).2.2.map
          (fun o => Obj.get o "notes")
      = some (.arr [.obj [("id", .num 1), ("title", .str "old")],
                    .obj [("id", .num 2), ("title", .str "old")],
                    .obj [("id", .num 3), ("title", .str "old")]])
    ∧ JVal.arr [.obj [("id", .num 1), ("title", .str "old")],
                .obj [("id", .num 2), ("title", .str "old")],
                .obj [("id", .num 3), ("title", .str "old")]] ≠ JVal.null := by
  decide

/-- C6 (amended): when a recomputation emits, every key present in the
previous record but absent from the new one appears in the emitted record
bound to `null` — provided the key is not a template-referenced relational
field (those are overwritten by the resolved relational value) and is not
the reserved `__currentUser` key (overwritten by the user snapshot). -/
theorem c6_removed_key_null (env : Env) (c : Caches) (val old emitted : Obj) (k : String)
    (hemit : (runHandler env c val (some old)).2.2 = some emitted)
    (hold : hasA old k = true) (hval : hasA val k = false)
    (hunres : env.relations.find? (fun rel => relMatchesKey rel k) = none ∨
      checkFieldInTemplate env.template k = false)
    (hcu : k ≠ "__currentUser") :
    Obj.get emitted k = JVal.null := by
  by_cases hgate : shouldUpdate env.template env.computedField val old = true
  swap
  · have hg : shouldUpdate env.template env.computedField val old = false := by
      simpa using hgate
    simp [runHandler, hg] at hemit
  · simp only [runHandler, Option.getD_some, hgate, Bool.not_true, Bool.false_eq_true,
      if_false, Option.some.injEq] at hemit
    subst hemit
    unfold Obj.get
    rw [getA_setA, if_neg (fun hh => hcu hh.symm), getA_spreadJS]
    have hrd := foldStep_no_new_key env (fillRemovedKeys val old) old
      (if truthy ((getA (fillRemovedKeys val old) "id").getD JVal.undef) = true
        then (getA (fillRemovedKeys val old) "id").getD JVal.undef else env.pk) k hunres
      ((fillRemovedKeys val old).map Prod.fst) (c, 0, ([] : Obj)) (by simp)
    rw [lastA_eq_none_of_not_mem _ _ hrd, orO_none_left]
    obtain ⟨extra, hve, hnull⟩ := fillRemovedKeys_parts old val
    rw [lastA_eq_of_all _ _ JVal.null (fillRemovedKeys_hasA old val k (Or.inl hold)) ?_]
    · rfl
    · intro p hp hpk
      rw [hve] at hp
      rcases List.mem_append.mp hp with hp | hp
      · exfalso
        have : hasA val k = true := (hasA_iff_exists val k).mpr ⟨p, hp, hpk⟩
        rw [this] at hval
        cases hval
      · exact hnull p hp

theorem c6_removed_key_null_witness :
    Obj.get ((runHandler envBooks emptyCaches [("x", JVal.num 1), ("notes", JVal.null)]
        (some [("x", JVal.num 1), ("notes", JVal.arr []), ("gone", JVal.str "g")])).2.2.getD [])
      "gone" = JVal.null :=
  c6_removed_key_null envBooks emptyCaches
    [("x", JVal.num 1), ("notes", JVal.null)]
    [("x", JVal.num 1), ("notes", JVal.arr []), ("gone", JVal.str "g")]
    ((runHandler envBooks emptyCaches [("x", JVal.num 1), ("notes", JVal.null)]
        (some [("x", JVal.num 1), ("notes", JVal.arr []), ("gone", JVal.str "g")])).2.2.getD [])
    "gone" (by decide) (by decide) (by decide) (by decide) (by decide)

/-- `rel` classifies `key` as a template-referenced many-to-one field of
the session `env`, with a usable related collection `rc`. -/
def M2OKey (env : Env) (key rc : String) (rel : Relation) (mt : RelationMeta) : Prop :=
  env.relations.find? (fun r => relMatchesKey r key) = some rel
  ∧ checkFieldInTemplate env.template key = true
  ∧ rel.collection = env.collection
  ∧ rel.meta = some mt ∧ mt.many_field = some key
  ∧ rel.related_collection = some rc ∧ rc ≠ ""

instance (env : Env) (key rc : String) (rel : Relation) (mt : RelationMeta) :
    Decidable (M2OKey env key rc rel mt) := by
  unfold M2OKey
  infer_instance

theorem resolveItems_value_miss (env : Env) (c : Caches) (m2o : Bool) (rel : Relation)
    (fieldChanges : JVal) (ids : List JVal) (rc : String)
    (hrc : (if m2o then rel.related_collection else some rel.collection) = some rc)
    (hrc' : rc ≠ "") (hmiss : getA c.itemCache rc = none) :
    (resolveItems env c m2o rel fieldChanges ids).2.2 =
      ids.map (fun id => mergeItem fieldChanges (env.itemsFetch rc id))
    ∧ (resolveItems env c m2o rel fieldChanges ids).2.1 =
        (if ids.isEmpty then 0 else 1) := by
  unfold resolveItems
  by_cases hempty : ids.isEmpty = true
  · simp [hempty, List.isEmpty_iff.mp hempty]
  · have hempty' : ids.isEmpty = false := by simpa using hempty
    simp only [hempty', Bool.false_eq_true, if_false, hrc]
    simp [hrc', hmiss, List.map_map, Function.comp]

theorem processKey_m2o_value (env : Env) (c : Caches) (valObj oldValObj : Obj) (pk : JVal)
    (key rc : String) (rel : Relation) (mt : RelationMeta)
    (hs : M2OKey env key rc rel mt)
    (hmiss : getA c.itemCache rc = none) (FC : JVal)
    (hFC : FC = normalizeM2O (if Obj.get valObj key == JVal.undef
        || Obj.get valObj key == JVal.null then defaultMutation else Obj.get valObj key)) :
    (processKey env c valObj oldValObj pk key).2.2 =
      some ((appendCreate FC ((concatUpdateIds FC []).map
        (fun id => mergeItem FC (env.itemsFetch rc id)))).headD JVal.undef) := by
  obtain ⟨hfind, htpl, hcoll, hmeta, hmf, hrc, hrc'⟩ := hs
  have hbeq : (rel.collection == env.collection) = true := beq_iff_eq.mpr hcoll
  have hrcif : (if (rel.collection == env.collection) = true
      then rel.related_collection else some rel.collection) = some rc := by
    rw [if_pos hbeq, hrc]
  unfold processKey
  rw [hfind]
  simp only [htpl, Bool.not_true, Bool.false_eq_true, if_false, hbeq, if_true, hmeta,
    Option.some_bind, hmf, Option.getD_some]
  rw [← hFC]
  by_cases hclear : m2oClears (if Obj.get valObj key == JVal.undef
      || Obj.get valObj key == JVal.null then defaultMutation else Obj.get valObj key)
      (Obj.get oldValObj key) = true
  · rw [if_pos hclear]
    have h1 := (resolveItems_value_miss env emptyCaches true rel FC
      (concatUpdateIds FC []) rc (by simp [hrc]) hrc' (by rfl)).1
    rcases hri : resolveItems env emptyCaches true rel FC (concatUpdateIds FC []) with
      ⟨c2, n2, ad⟩
    simp only [hri] at h1 ⊢
    rw [h1]
  · rw [if_neg hclear]
    have h1 := (resolveItems_value_miss env c true rel FC
      (concatUpdateIds FC []) rc (by simp [hrc]) hrc' hmiss).1
    rcases hri : resolveItems env c true rel FC (concatUpdateIds FC []) with ⟨c2, n2, ad⟩
    simp only [hri] at h1 ⊢
    rw [h1]

theorem normalizeM2O_scalar (v : JVal) (h : isScalar v = true) :
    normalizeM2O v = .obj [("update", .arr [.obj [("id", v)]])] := by
  unfold normalizeM2O
  rw [if_pos h]

theorem normalizeM2O_obj_id (kvs : Obj) (h : hasA kvs "id" = true) :
    normalizeM2O (.obj kvs) = .obj [("update", .arr [.obj kvs])] := by
  simp [normalizeM2O, isScalar, typeofIsObject, hasIdProp, h]

theorem normalizeM2O_obj_noid (kvs : Obj) (h : hasA kvs "id" = false) :
    normalizeM2O (.obj kvs) = .obj [("create", .arr [spreadClone (.obj kvs)])] := by
  simp [normalizeM2O, isScalar, typeofIsObject, hasIdProp, h]

theorem mergeItem_single (fc item u : JVal) (hu : asArr (fc.getProp "update") = [u])
    (hid : item.getProp "id" = u.getProp "id") : mergeItem fc item = jsMerge item u := by
  unfold mergeItem
  rw [hu, List.find?_cons_of_pos _ (by simp [hid]), Option.getD_some]

/-- C2: many-to-one normalization — a scalar raw value becomes
`{update: [{id: v}]}`, an object with an `id` key becomes
`{update: [that object]}`, any other object becomes `{create: [that
object]}`; the resolved field value is the single first resolved element,
the fetched entity shallow-merged with the update-list partial (for the
create shape, the created object itself). -/
theorem c2_m2o_normalization :
    (∀ v : JVal, isScalar v = true →
        normalizeM2O v = .obj [("update", .arr [.obj [("id", v)]])])
    ∧ (∀ kvs : Obj, hasA kvs "id" = true →
        normalizeM2O (.obj kvs) = .obj [("update", .arr [.obj kvs])])
    ∧ (∀ kvs : Obj, hasA kvs "id" = false →
        normalizeM2O (.obj kvs) = .obj [("create", .arr [spreadClone (.obj kvs)])])
    ∧ (∀ (env : Env) (c : Caches) (valObj oldValObj : Obj) (pk : JVal) (key rc : String)
        (rel : Relation) (mt : RelationMeta),
        M2OKey env key rc rel mt → getA c.itemCache rc = none →
        isScalar (Obj.get valObj key) = true →
        (env.itemsFetch rc (Obj.get valObj key)).getProp "id" = Obj.get valObj key →
        (processKey env c valObj oldValObj pk key).2.2 =
          some (jsMerge (env.itemsFetch rc (Obj.get valObj key))
            (.obj [("id", Obj.get valObj key)])))
    ∧ (∀ (env : Env) (c : Caches) (valObj oldValObj : Obj) (pk : JVal) (key rc : String)
        (rel : Relation) (mt : RelationMeta) (kvs : Obj),
        M2OKey env key rc rel mt → getA c.itemCache rc = none →
        Obj.get valObj key = .obj kvs → hasA kvs "id" = true →
        (env.itemsFetch rc (Obj.get kvs "id")).getProp "id" = Obj.get kvs "id" →
        (processKey env c valObj oldValObj pk key).2.2 =
          some (jsMerge (env.itemsFetch rc (Obj.get kvs "id")) (.obj kvs)))
    ∧ (∀ (env : Env) (c : Caches) (valObj oldValObj : Obj) (pk : JVal) (key rc : String)
        (rel : Relation) (mt : RelationMeta) (kvs : Obj),
        M2OKey env key rc rel mt → getA c.itemCache rc = none →
        Obj.get valObj key = .obj kvs → hasA kvs "id" = false →
        (processKey env c valObj oldValObj pk key).2.2 =
          some (spreadClone (.obj kvs))) := by
  refine ⟨normalizeM2O_scalar, normalizeM2O_obj_id, normalizeM2O_obj_noid, ?_, ?_, ?_⟩
  · intro env c valObj oldValObj pk key rc rel mt hs hmiss hscalar hid
    cases hr : Obj.get valObj key with
    | num n =>
      rw [hr] at hid
      rw [processKey_m2o_value env c valObj oldValObj pk key rc rel mt hs hmiss
        (JVal.obj [("update", JVal.arr [JVal.obj [("id", JVal.num n)]])])
        (by rw [hr]; exact (normalizeM2O_scalar (JVal.num n) rfl).symm)]
      show some (mergeItem (JVal.obj [("update", JVal.arr [JVal.obj [("id", JVal.num n)]])])
        (env.itemsFetch rc (JVal.num n))) = _
      rw [mergeItem_single (JVal.obj [("update", JVal.arr [JVal.obj [("id", JVal.num n)]])])
        (env.itemsFetch rc (JVal.num n)) (JVal.obj [("id", JVal.num n)]) rfl
        (by rw [hid]; rfl)]
    | str s =>
      rw [hr] at hid
      rw [processKey_m2o_value env c valObj oldValObj pk key rc rel mt hs hmiss
        (JVal.obj [("update", JVal.arr [JVal.obj [("id", JVal.str s)]])])
        (by rw [hr]; exact (normalizeM2O_scalar (JVal.str s) rfl).symm)]
      show some (mergeItem (JVal.obj [("update", JVal.arr [JVal.obj [("id", JVal.str s)]])])
        (env.itemsFetch rc (JVal.str s))) = _
      rw [mergeItem_single (JVal.obj [("update", JVal.arr [JVal.obj [("id", JVal.str s)]])])
        (env.itemsFetch rc (JVal.str s)) (JVal.obj [("id", JVal.str s)]) rfl
        (by rw [hid]; rfl)]
    | undef => rw [hr] at hscalar; simp [isScalar] at hscalar
    | null => rw [hr] at hscalar; simp [isScalar] at hscalar
    | bool b => rw [hr] at hscalar; simp [isScalar] at hscalar
    | arr xs => rw [hr] at hscalar; simp [isScalar] at hscalar
    | obj kvs => rw [hr] at hscalar; simp [isScalar] at hscalar
  · intro env c valObj oldValObj pk key rc rel mt kvs hs hmiss hr hhas hid
    rw [processKey_m2o_value env c valObj oldValObj pk key rc rel mt hs hmiss
      (JVal.obj [("update", JVal.arr [JVal.obj kvs])])
      (by rw [hr]; exact (normalizeM2O_obj_id kvs hhas).symm)]
    show some (mergeItem (JVal.obj [("update", JVal.arr [JVal.obj kvs])])
      (env.itemsFetch rc (Obj.get kvs "id"))) = _
    rw [mergeItem_single (JVal.obj [("update", JVal.arr [JVal.obj kvs])])
      (env.itemsFetch rc (Obj.get kvs "id")) (JVal.obj kvs) rfl (by rw [hid]; rfl)]
  · intro env c valObj oldValObj pk key rc rel mt kvs hs hmiss hr hhas
    rw [processKey_m2o_value env c valObj oldValObj pk key rc rel mt hs hmiss
      (JVal.obj [("create", JVal.arr [spreadClone (JVal.obj kvs)])])
      (by rw [hr]; exact (normalizeM2O_obj_noid kvs hhas).symm)]
    rfl

theorem c2_m2o_normalization_witness :
    (processKey envAuthors emptyCaches [("author", JVal.obj [("id", JVal.num 7), ("note", JVal.str "x")])]
      [] (JVal.num 10) "author").2.2 =
      some (jsMerge (envAuthors.itemsFetch "authors" (JVal.num 7))
        (JVal.obj [("id", JVal.num 7), ("note", JVal.str "x")])) := by
  have h := c2_m2o_normalization.2.2.2.2.1 envAuthors emptyCaches
    [("author", JVal.obj [("id", JVal.num 7), ("note", JVal.str "x")])] [] (JVal.num 10)
    "author" "authors" ⟨"books", some "authors", some ⟨none, some "author"⟩⟩
    ⟨none, some "author"⟩ [("id", JVal.num 7), ("note", JVal.str "x")]
    (by decide) (by decide) (by decide) (by decide) (by decide)
  exact h

/-- `rel` classifies `key` as a template-referenced one-to-many field of
the session `env`; the related collection is `rel.collection` itself. -/
def O2MKey (env : Env) (key : String) (rel : Relation) (mt : RelationMeta) : Prop :=
  env.relations.find? (fun r => relMatchesKey r key) = some rel
  ∧ checkFieldInTemplate env.template key = true
  ∧ rel.collection ≠ env.collection
  ∧ rel.meta = some mt ∧ mt.one_field = some key
  ∧ rel.collection ≠ ""

instance (env : Env) (key : String) (rel : Relation) (mt : RelationMeta) :
    Decidable (O2MKey env key rel mt) := by
  unfold O2MKey
  infer_instance

/-- The one-to-many branch of the key loop, written as a projection
chain (definitionally equal to the branch the source selects for a
one-to-many key). -/
theorem processKey_o2m_eq (env : Env) (c : Caches) (valObj oldValObj : Obj) (pk : JVal)
    (key : String) (rel : Relation) (mt : RelationMeta) (hs : O2MKey env key rel mt) :
    processKey env c valObj oldValObj pk key =
      (let fc0 := if Obj.get valObj key == JVal.undef || Obj.get valObj key == JVal.null
          then defaultMutation else Obj.get valObj key
       let c1 := if o2mClears fc0 (Obj.get oldValObj key) then emptyCaches else c
       let bl : Caches × Nat × List JVal :=
         if pk != JVal.str "+" then
           let r := baselineRead env c1 pk key
           (r.1, r.2.1, jsConcat [] r.2.2)
         else (c1, 0, [])
       let ids := concatUpdateIds fc0 (filterBaseline fc0 bl.2.2)
       let ri := resolveItems env bl.1 false rel fc0 ids
       (ri.1, bl.2.1 + ri.2.1, some (.arr (appendCreate fc0 ri.2.2)))) := by
  obtain ⟨hfind, htpl, hne, hmeta, hone, hrc'⟩ := hs
  unfold processKey
  rw [hfind]
  have h1 : ¬((!checkFieldInTemplate env.template key) = true) := by simp [htpl]
  have h2 : ¬((rel.collection == env.collection) = true) := by simp [hne]
  simp only [if_neg h1, if_neg h2, hmeta, Option.some_bind, hone, Option.getD_some]

theorem writeItems_fieldCache (rc : String) (items : List JVal) (c : Caches) :
    (writeItems rc items c).fieldCache = c.fieldCache := by
  induction items generalizing c with
  | nil => rfl
  | cons item rest ih =>
    unfold writeItems
    simp only [List.foldl_cons]
    exact ih _

theorem resolveItems_fieldCache (env : Env) (c : Caches) (m2o : Bool) (rel : Relation)
    (fc : JVal) (ids : List JVal) :
    (resolveItems env c m2o rel fc ids).1.fieldCache = c.fieldCache := by
  unfold resolveItems
  split
  · rfl
  · split
    · rfl
    · split
      · rfl
      · exact writeItems_fieldCache _ _ _

theorem find?_by_id_nodup (us : List JVal) (u : JVal) (hu : u ∈ us)
    (hnodup : (us.map (fun w => w.getProp "id")).Nodup) :
    us.find? (fun w => u.getProp "id" == w.getProp "id") = some u := by
  induction us with
  | nil => cases hu
  | cons v rest ih =>
    simp only [List.map_cons, List.nodup_cons] at hnodup
    rcases List.mem_cons.mp hu with rfl | hu2
    · rw [List.find?_cons_of_pos _ (by simp)]
    · have huid : u.getProp "id" ∈ rest.map (fun w => w.getProp "id") :=
        List.mem_map_of_mem _ hu2
      have hne : (u.getProp "id" == v.getProp "id") = false := by
        rw [beq_eq_false_iff_ne]
        intro he
        rw [← he] at hnodup
        exact hnodup.1 huid
      rw [List.find?_cons_of_neg _ (by simp [hne])]
      exact ih hu2 hnodup.2

/-- C1: one-to-many reconciliation.  For a template-referenced one-to-many
key of a record that is not the new-record sentinel, with a mutation-shaped
raw value carrying an update list `us` and a delete list `ds` (and no
create list), and a not-yet-memoized baseline: the handler performs the
single-field baseline read (and memoizes it in FieldCache under the field
name), drops from the baseline every id in the update list and every id in
the delete list, appends the update-list ids, and resolves the surviving
ids in that order, each entity shallow-merged with its update-list entry —
for a surviving baseline id the merge is a no-op, and (for distinct update
ids) an update id's entity is merged with exactly its own partial data. -/
theorem c1_o2m_reconciliation (env : Env) (c : Caches) (valObj oldValObj : Obj)
    (pk : JVal) (key : String) (rel : Relation) (mt : RelationMeta) (fcs : Obj)
    (us ds bs : List JVal)
    (hs : O2MKey env key rel mt)
    (hraw : Obj.get valObj key = .obj fcs)
    (hupd : Obj.get fcs "update" = .arr us)
    (hdel : Obj.get fcs "delete" = .arr ds)
    (hcr : Obj.get fcs "create" = JVal.undef)
    (hpk : pk ≠ JVal.str "+")
    (hfc : getA c.fieldCache key = none)
    (hbase : env.fieldRead env.collection pk key = .arr bs)
    (hmiss : getA c.itemCache rel.collection = none)
    (hid : ∀ id : JVal, (env.itemsFetch rel.collection id).getProp "id" = id) :
    ((processKey env c valObj oldValObj pk key).2.2 =
      some (.arr (((bs.filter
            (fun id => !(us.map (fun u => u.getProp "id")).contains id)).filter
            (fun id => !ds.contains id)
          ++ us.map (fun u => u.getProp "id")).map
        (fun id => mergeItem (.obj fcs) (env.itemsFetch rel.collection id)))))
    ∧ getA (processKey env c valObj oldValObj pk key).1.fieldCache key = some (.arr bs)
    ∧ (∀ id : JVal, ¬ id ∈ us.map (fun u => u.getProp "id") →
        mergeItem (.obj fcs) (env.itemsFetch rel.collection id) =
          jsMerge (env.itemsFetch rel.collection id) JVal.undef)
    ∧ ((us.map (fun u => u.getProp "id")).Nodup → ∀ u ∈ us,
        mergeItem (.obj fcs) (env.itemsFetch rel.collection (u.getProp "id")) =
          jsMerge (env.itemsFetch rel.collection (u.getProp "id")) u) := by
  rw [processKey_o2m_eq env c valObj oldValObj pk key rel mt hs]
  rw [hraw]
  have hfc0 : (JVal.obj fcs == JVal.undef || JVal.obj fcs == JVal.null) = false := rfl
  have hclr : o2mClears (JVal.obj fcs) (Obj.get oldValObj key) = false := rfl
  have hbne : (pk != JVal.str "+") = true := bne_iff_ne.mpr hpk
  have hbl : baselineRead env c pk key =
      ({ c with fieldCache := setA c.fieldCache key (.arr bs) }, 1, .arr bs) := by
    unfold baselineRead
    simp only [hfc, hbase]
  have hasu : asArr ((JVal.obj fcs).getProp "update") = us := by
    show asArr (Obj.get fcs "update") = us
    rw [hupd]
    rfl
  have htru : truthy ((JVal.obj fcs).getProp "update") = true := by
    show truthy (Obj.get fcs "update") = true
    rw [hupd]
    rfl
  have hasd : asArr ((JVal.obj fcs).getProp "delete") = ds := by
    show asArr (Obj.get fcs "delete") = ds
    rw [hdel]
    rfl
  have htrd : truthy ((JVal.obj fcs).getProp "delete") = true := by
    show truthy (Obj.get fcs "delete") = true
    rw [hdel]
    rfl
  have hcrt : truthy ((JVal.obj fcs).getProp "create") = false := by
    show truthy (Obj.get fcs "create") = false
    rw [hcr]
    rfl
  simp only [hfc0, Bool.false_eq_true, if_false, hclr, hbne, if_true, hbl]
  have hids : concatUpdateIds (JVal.obj fcs)
        (filterBaseline (JVal.obj fcs) (jsConcat [] (.arr bs)))
      = (bs.filter (fun id => !(us.map (fun u => u.getProp "id")).contains id)).filter
          (fun id => !ds.contains id) ++ us.map (fun u => u.getProp "id") := by
    unfold concatUpdateIds filterBaseline updateIds
    simp only [htru, htrd, hasu, hasd, if_true, jsConcat, List.nil_append]
  rw [hids]
  have hvm := (resolveItems_value_miss env
    { c with fieldCache := setA c.fieldCache key (.arr bs) }
    false rel (JVal.obj fcs)
    ((bs.filter (fun id => !(us.map (fun u => u.getProp "id")).contains id)).filter
        (fun id => !ds.contains id) ++ us.map (fun u => u.getProp "id"))
    rel.collection (by simp) hs.2.2.2.2.2 hmiss).1
  refine ⟨?_, ?_, ?_, ?_⟩
  · show some (JVal.arr (appendCreate (JVal.obj fcs)
      (resolveItems env { c with fieldCache := setA c.fieldCache key (.arr bs) }
        false rel (JVal.obj fcs)
        ((bs.filter (fun id => !(us.map (fun u => u.getProp "id")).contains id)).filter
            (fun id => !ds.contains id) ++ us.map (fun u => u.getProp "id"))).2.2)) = _
    rw [hvm]
    unfold appendCreate
    rw [if_neg (by simp [hcrt])]
  · show getA (resolveItems env { c with fieldCache := setA c.fieldCache key (.arr bs) }
        false rel (JVal.obj fcs)
        ((bs.filter (fun id => !(us.map (fun u => u.getProp "id")).contains id)).filter
            (fun id => !ds.contains id)
          ++ us.map (fun u => u.getProp "id"))).1.fieldCache key = _
    rw [resolveItems_fieldCache]
    show getA (setA c.fieldCache key (JVal.arr bs)) key = _
    rw [getA_setA, if_pos rfl]
  · intro id hnotin
    unfold mergeItem
    rw [hasu]
    have hnone : us.find? (fun w =>
        (env.itemsFetch rel.collection id).getProp "id" == w.getProp "id") = none := by
      rw [List.find?_eq_none]
      intro w hw
      simp only [hid, beq_iff_eq]
      intro heq
      apply hnotin
      rw [heq]
      exact List.mem_map_of_mem _ hw
    rw [hnone, Option.getD_none]
  · intro hnodup u hu
    unfold mergeItem
    rw [hasu, hid, find?_by_id_nodup us u hu hnodup, Option.getD_some]

theorem c1_o2m_reconciliation_witness :
    (processKey envBooks emptyCaches
      [("notes", JVal.obj [("update", JVal.arr [JVal.obj [("id", JVal.num 2), ("title", JVal.str "new")]]),
                           ("delete", JVal.arr [JVal.num 3])])]
      [] (JVal.num 10) "notes").2.2 =
      some (.arr [jsMerge (envBooks.itemsFetch "notes" (JVal.num 1)) JVal.undef,
                  jsMerge (envBooks.itemsFetch "notes" (JVal.num 2))
                    (JVal.obj [("id", JVal.num 2), ("title", JVal.str "new")])]) := by
  have h := c1_o2m_reconciliation envBooks emptyCaches
    [("notes", JVal.obj [("update", JVal.arr [JVal.obj [("id", JVal.num 2), ("title", JVal.str "new")]]),
                         ("delete", JVal.arr [JVal.num 3])])]
    [] (JVal.num 10) "notes"
    ⟨"notes", some "books", some ⟨some "notes", some "book_id"⟩⟩ ⟨some "notes", some "book_id"⟩
    [("update", JVal.arr [JVal.obj [("id", JVal.num 2), ("title", JVal.str "new")]]),
     ("delete", JVal.arr [JVal.num 3])]
    [JVal.obj [("id", JVal.num 2), ("title", JVal.str "new")]] [JVal.num 3]
    [JVal.num 1, JVal.num 2, JVal.num 3]
    (by decide) (by decide) (by decide) (by decide) (by decide) (by decide) (by decide)
    (by decide) (by decide) (fun _ => rfl)
  rw [h.1]
  decide

/-- The many-to-one branch of the key loop, written as a projection chain
(definitionally equal to the branch the source selects). -/
theorem processKey_m2o_eq (env : Env) (c : Caches) (valObj oldValObj : Obj) (pk : JVal)
    (key rc : String) (rel : Relation) (mt : RelationMeta) (hs : M2OKey env key rc rel mt) :
    processKey env c valObj oldValObj pk key =
      (let fc0 := if Obj.get valObj key == JVal.undef || Obj.get valObj key == JVal.null
          then defaultMutation else Obj.get valObj key
       let c1 := if m2oClears fc0 (Obj.get oldValObj key) then emptyCaches else c
       let FC := normalizeM2O fc0
       let ri := resolveItems env c1 true rel FC (concatUpdateIds FC [])
       (ri.1, ri.2.1, some ((appendCreate FC ri.2.2).headD JVal.undef))) := by
  obtain ⟨hfind, htpl, hcoll, hmeta, hmf, hrc, hrc'⟩ := hs
  unfold processKey
  rw [hfind]
  have h1 : ¬((!checkFieldInTemplate env.template key) = true) := by simp [htpl]
  have h2 : (rel.collection == env.collection) = true := beq_iff_eq.mpr hcoll
  simp only [if_neg h1, if_pos h2, hmeta, Option.some_bind, hmf, Option.getD_some]

/-- Replacing a `null`/`undefined` raw value by the default mutation does
not change whether the value is an array. -/
theorem fc0_isArr (v : JVal) :
    JVal.isArr (if v == JVal.undef || v == JVal.null then defaultMutation else v)
      = JVal.isArr v := by
  cases v <;> rfl

theorem fc0_isScalar (v : JVal) :
    isScalar (if v == JVal.undef || v == JVal.null then defaultMutation else v)
      = isScalar v := by
  cases v <;> rfl

theorem scalar_not_nullish (v : JVal) (h : isScalar v = true) :
    (v == JVal.undef || v == JVal.null) = false := by
  cases v <;> first | rfl | simp [isScalar] at h

theorem resolveItems_hit (env : Env) (c : Caches) (m2o : Bool) (rel : Relation)
    (fc : JVal) (ids : List JVal) (rc : String)
    (hrc : (if m2o then rel.related_collection else some rel.collection) = some rc)
    (hrc' : rc ≠ "") (m : List (String × JVal)) (hm : getA c.itemCache rc = some m)
    (hall : ids.all (fun id => hasA m (jvalKey id)) = true) :
    (resolveItems env c m2o rel fc ids).2.1 = 0
    ∧ (resolveItems env c m2o rel fc ids).2.2 =
        ids.map (fun id => mergeItem fc (Obj.get m (jvalKey id))) := by
  unfold resolveItems
  by_cases he : ids.isEmpty = true
  · rw [List.isEmpty_iff.mp he]
    simp
  · have he' : ids.isEmpty = false := by simpa using he
    simp only [he', Bool.false_eq_true, if_false, hrc]
    simp [hrc', hm, hall, List.map_map, Function.comp]

/-- C4: cache invalidation on shape transition.  (i) a one-to-many field
whose raw value became an array while the previous raw value was not one
refetches its baseline even when FieldCache already holds it, and the
result memoizes the fresh read; (ii) a many-to-one field whose raw value
became a scalar while the previous raw value was object-typed fetches even
on a full ItemCache hit; (iii) any one-to-many pass without the
array-transition keeps FieldCache exactly as it was (a cached baseline
stays cached and is not refetched); (iv) a many-to-one pass without the
scalar-transition and with a full ItemCache hit makes no fetch at all. -/
theorem c4_cache_invalidation :
    (∀ (env : Env) (c : Caches) (valObj oldValObj : Obj) (pk : JVal) (key : String)
        (rel : Relation) (mt : RelationMeta) (xs : List JVal),
        O2MKey env key rel mt →
        Obj.get valObj key = .arr xs →
        JVal.isArr (Obj.get oldValObj key) = false →
        pk ≠ JVal.str "+" →
        hasA c.fieldCache key = true →
        1 ≤ (processKey env c valObj oldValObj pk key).2.1
        ∧ (processKey env c valObj oldValObj pk key).1.fieldCache
            = setA [] key (env.fieldRead env.collection pk key))
    ∧ (∀ (env : Env) (c : Caches) (valObj oldValObj : Obj) (pk : JVal) (key rc : String)
        (rel : Relation) (mt : RelationMeta),
        M2OKey env key rc rel mt →
        isScalar (Obj.get valObj key) = true →
        typeofIsObject (Obj.get oldValObj key) = true →
        (processKey env c valObj oldValObj pk key).2.1 = 1)
    ∧ (∀ (env : Env) (c : Caches) (valObj oldValObj : Obj) (pk : JVal) (key : String)
        (rel : Relation) (mt : RelationMeta) (d : JVal),
        O2MKey env key rel mt →
        o2mClears (Obj.get valObj key) (Obj.get oldValObj key) = false →
        getA c.fieldCache key = some d →
        (processKey env c valObj oldValObj pk key).1.fieldCache = c.fieldCache)
    ∧ (∀ (env : Env) (c : Caches) (valObj oldValObj : Obj) (pk : JVal) (key rc : String)
        (rel : Relation) (mt : RelationMeta) (m : List (String × JVal)),
        M2OKey env key rc rel mt →
        isScalar (Obj.get valObj key) = true →
        typeofIsObject (Obj.get oldValObj key) = false →
        getA c.itemCache rc = some m →
        hasA m (jvalKey (Obj.get valObj key)) = true →
        (processKey env c valObj oldValObj pk key).2.1 = 0) := by
  refine ⟨?_, ?_, ?_, ?_⟩
  · intro env c valObj oldValObj pk key rel mt xs hs hraw hold hpk _
    rw [processKey_o2m_eq env c valObj oldValObj pk key rel mt hs, hraw]
    have hfc0 : (JVal.arr xs == JVal.undef || JVal.arr xs == JVal.null) = false := rfl
    have hclr : o2mClears (JVal.arr xs) (Obj.get oldValObj key) = true := by
      unfold o2mClears
      rw [hold]
      rfl
    have hbne : (pk != JVal.str "+") = true := bne_iff_ne.mpr hpk
    have hbl : baselineRead env emptyCaches pk key =
        (⟨setA [] key (env.fieldRead env.collection pk key), []⟩, 1,
          env.fieldRead env.collection pk key) := rfl
    simp only [hfc0, Bool.false_eq_true, if_false, hclr, if_true, hbne, hbl]
    constructor
    · exact Nat.le_add_right 1 _
    · rw [resolveItems_fieldCache]
  · intro env c valObj oldValObj pk key rc rel mt hs hscalar hold
    rw [processKey_m2o_eq env c valObj oldValObj pk key rc rel mt hs]
    rw [scalar_not_nullish _ hscalar]
    have hclr : m2oClears (Obj.get valObj key) (Obj.get oldValObj key) = true := by
      unfold m2oClears
      rw [hscalar, hold]
      rfl
    simp only [Bool.false_eq_true, if_false, hclr, if_true,
      normalizeM2O_scalar _ hscalar]
    have hids : concatUpdateIds
        (JVal.obj [("update", JVal.arr [JVal.obj [("id", Obj.get valObj key)]])]) []
        = [Obj.get valObj key] := rfl
    rw [hids]
    exact (resolveItems_value_miss env emptyCaches true rel _ _ rc
      (by simp [hs.2.2.2.2.2.1]) hs.2.2.2.2.2.2 rfl).2
  · intro env c valObj oldValObj pk key rel mt d hs hnc hwarm
    rw [processKey_o2m_eq env c valObj oldValObj pk key rel mt hs]
    have hclr : o2mClears (if Obj.get valObj key == JVal.undef
        || Obj.get valObj key == JVal.null then defaultMutation else Obj.get valObj key)
        (Obj.get oldValObj key) = false := by
      unfold o2mClears at hnc ⊢
      rw [fc0_isArr]
      exact hnc
    simp only [hclr, Bool.false_eq_true, if_false]
    by_cases hb : (pk != JVal.str "+") = true
    · have hbl : baselineRead env c pk key = (c, 0, d) := by
        unfold baselineRead
        simp only [hwarm]
      simp only [hb, if_true, hbl]
      rw [resolveItems_fieldCache]
    · have hb' : (pk != JVal.str "+") = false := by simpa using hb
      simp only [hb', Bool.false_eq_true, if_false]
      rw [resolveItems_fieldCache]
  · intro env c valObj oldValObj pk key rc rel mt m hs hscalar hold hm hwarm
    rw [processKey_m2o_eq env c valObj oldValObj pk key rc rel mt hs]
    rw [scalar_not_nullish _ hscalar]
    have hclr : m2oClears (Obj.get valObj key) (Obj.get oldValObj key) = false := by
      unfold m2oClears
      rw [hold]
      simp
    simp only [Bool.false_eq_true, if_false, hclr, normalizeM2O_scalar _ hscalar]
    have hids : concatUpdateIds
        (JVal.obj [("update", JVal.arr [JVal.obj [("id", Obj.get valObj key)]])]) []
        = [Obj.get valObj key] := rfl
    rw [hids]
    exact (resolveItems_hit env c true rel _ _ rc (by simp [hs.2.2.2.2.2.1])
      hs.2.2.2.2.2.2 m hm (by simp [hwarm])).1

theorem c4_cache_invalidation_witness :
    (1 ≤ (processKey envBooks ⟨[("notes", JVal.arr [JVal.num 9])], []⟩
        [("notes", JVal.arr [])] [("notes", JVal.obj [])] (JVal.num 10) "notes").2.1)
    ∧ (processKey envBooks ⟨[("notes", JVal.arr [JVal.num 9])], []⟩
        [("notes", JVal.arr [])] [("notes", JVal.obj [])] (JVal.num 10) "notes").1.fieldCache
        = [("notes", JVal.arr [JVal.num 1, JVal.num 2, JVal.num 3])] := by
  have h := c4_cache_invalidation.1 envBooks ⟨[("notes", JVal.arr [JVal.num 9])], []⟩
    [("notes", JVal.arr [])] [("notes", JVal.obj [])] (JVal.num 10) "notes"
    ⟨"notes", some "books", some ⟨some "notes", some "book_id"⟩⟩ ⟨some "notes", some "book_id"⟩
    [] (by decide) (by decide) (by decide) (by decide) (by decide)
  exact ⟨h.1, h.2.trans (by decide)⟩

/-! ### Idempotence infrastructure (C7) -/

/-- An association list with pairwise-distinct keys (JS objects never hold
a key twice; the caches grow from empty via `setA`, which preserves
this). -/
def NoDupKeys {α : Type} (m : List (String × α)) : Prop :=
  (m.map Prod.fst).Nodup

/-- Every cache entry holds exactly what the abstract client returns:
FieldCache entries are the baseline read for their field, and ItemCache
entries are the fetched entity for any id that coerces to the entry's
string key. -/
def CachesOK (env : Env) (pk : JVal) (c : Caches) : Prop :=
  (∀ k d, getA c.fieldCache k = some d → d = env.fieldRead env.collection pk k)
  ∧ (∀ rc mm, getA c.itemCache rc = some mm →
      ∀ idk item, getA mm idk = some item →
        ∀ id, jvalKey id = idk → item = env.itemsFetch rc id)

/-- All three association lists of the caches are duplicate-free. -/
def CachesND (c : Caches) : Prop :=
  NoDupKeys c.fieldCache ∧ NoDupKeys c.itemCache
  ∧ ∀ rc mm, getA c.itemCache rc = some mm → NoDupKeys mm

/-- `c'` contains every binding of `c` (caches only grow while no reset
fires). -/
def cacheLE (c c' : Caches) : Prop :=
  (∀ k d, getA c.fieldCache k = some d → getA c'.fieldCache k = some d)
  ∧ (∀ rc mm, getA c.itemCache rc = some mm → ∃ mm', getA c'.itemCache rc = some mm'
      ∧ ∀ idk it, getA mm idk = some it → getA mm' idk = some it)

theorem cacheLE_refl (c : Caches) : cacheLE c c :=
  ⟨fun _ _ h => h, fun _ mm h => ⟨mm, h, fun _ _ hh => hh⟩⟩

theorem cacheLE_trans {a b c : Caches} (h1 : cacheLE a b) (h2 : cacheLE b c) :
    cacheLE a c := by
  refine ⟨fun k d h => h2.1 k d (h1.1 k d h), fun rc mm h => ?_⟩
  obtain ⟨mm', hmm', hsub⟩ := h1.2 rc mm h
  obtain ⟨mm'', hmm'', hsub'⟩ := h2.2 rc mm' hmm'
  exact ⟨mm'', hmm'', fun idk it hit => hsub' idk it (hsub idk it hit)⟩

theorem cacheLE_empty (c : Caches) : cacheLE emptyCaches c := by
  constructor
  · intro k d h
    simp [emptyCaches, getA_nil] at h
  · intro rc mm h
    simp [emptyCaches, getA_nil] at h

theorem cachesOK_empty (env : Env) (pk : JVal) : CachesOK env pk emptyCaches := by
  constructor
  · intro k d h
    simp [emptyCaches, getA_nil] at h
  · intro rc mm h
    simp [emptyCaches, getA_nil] at h

theorem cachesND_empty : CachesND emptyCaches := by
  refine ⟨List.nodup_nil, List.nodup_nil, ?_⟩
  intro rc mm h
  simp [emptyCaches, getA_nil] at h

theorem noDupKeys_setA {α : Type} (m : List (String × α)) (k : String) (v : α)
    (h : NoDupKeys m) : NoDupKeys (setA m k v) := by
  unfold setA
  split
  · unfold NoDupKeys at h ⊢
    have : (m.map (fun p => if p.1 == k then (k, v) else p)).map Prod.fst = m.map Prod.fst := by
      rw [List.map_map]
      apply List.map_congr_left
      intro p _
      by_cases hp : (p.1 == k) = true
      · simp only [Function.comp_apply, if_pos hp]
        exact (beq_iff_eq.mp hp).symm
      · simp only [Function.comp_apply, if_neg hp]
    rw [this]
    exact h
  · rename_i hh
    unfold NoDupKeys at h ⊢
    rw [List.map_append]
    simp only [List.map_cons, List.map_nil]
    rw [List.nodup_append]
    refine ⟨h, List.nodup_singleton _, ?_⟩
    intro a ha hb
    simp only [List.mem_singleton] at hb
    subst hb
    apply hh
    rw [hasA_iff_exists]
    obtain ⟨p, hp, he⟩ := List.mem_map.mp ha
    exact ⟨p, hp, he⟩

theorem mapReplace_self {α : Type} (m : List (String × α)) (k : String) (v : α)
    (hND : NoDupKeys m) (h : getA m k = some v) :
    m.map (fun p => if p.1 == k then (k, v) else p) = m := by
  induction m with
  | nil => rfl
  | cons p rest ih =>
    simp only [NoDupKeys, List.map_cons, List.nodup_cons] at hND
    by_cases hp : p.1 = k
    · rw [getA_cons, if_pos hp] at h
      injection h with h
      simp only [List.map_cons]
      have hhead : (if (p.1 == k) = true then (k, v) else p) = p := by
        rw [if_pos (beq_iff_eq.mpr hp), ← hp, ← h]
      have htail : rest.map (fun p => if p.1 == k then (k, v) else p) = rest := by
        have hcg : ∀ q ∈ rest, (if (q.1 == k) = true then (k, v) else q) = id q := by
          intro q hq
          rw [if_neg]
          · rfl
          · simp only [beq_iff_eq]
            intro he
            apply hND.1
            rw [hp, ← he]
            exact List.mem_map_of_mem _ hq
        rw [List.map_congr_left hcg, List.map_id]
      rw [hhead, htail]
    · rw [getA_cons, if_neg hp] at h
      simp only [List.map_cons]
      rw [if_neg (by simp [hp]), ih hND.2 h]

theorem setA_self {α : Type} (m : List (String × α)) (k : String) (v : α)
    (hND : NoDupKeys m) (h : getA m k = some v) : setA m k v = m := by
  unfold setA
  rw [if_pos (by rw [hasA_eq, h]; rfl), mapReplace_self m k v hND h]

theorem writeOne_props (env : Env) (pk : JVal) (rc : String) (item : JVal) (c : Caches)
    (hcoh : ∀ id id', jvalKey id = jvalKey id' → env.itemsFetch rc id = env.itemsFetch rc id')
    (hOK : CachesOK env pk c) (hND : CachesND c)
    (id0 : JVal) (hitem : item = env.itemsFetch rc id0)
    (hid0 : jvalKey (item.getProp "id") = jvalKey id0) :
    CachesOK env pk ⟨c.fieldCache, setA c.itemCache rc
        (setA ((getA c.itemCache rc).getD []) (jvalKey (item.getProp "id")) item)⟩
    ∧ CachesND ⟨c.fieldCache, setA c.itemCache rc
        (setA ((getA c.itemCache rc).getD []) (jvalKey (item.getProp "id")) item)⟩
    ∧ cacheLE c ⟨c.fieldCache, setA c.itemCache rc
        (setA ((getA c.itemCache rc).getD []) (jvalKey (item.getProp "id")) item)⟩ := by
  have hmm0ND : NoDupKeys ((getA c.itemCache rc).getD []) := by
    cases hcc : getA c.itemCache rc with
    | none => exact List.nodup_nil
    | some mm00 => exact hND.2.2 rc mm00 hcc
  refine ⟨⟨hOK.1, ?_⟩, ⟨hND.1, noDupKeys_setA _ _ _ hND.2.1, ?_⟩, ⟨fun k d h => h, ?_⟩⟩
  · -- CachesOK, itemCache clause
    intro rc' mm hmm idk it hit id hid
    simp only [getA_setA] at hmm
    by_cases hrc : rc = rc'
    · rw [if_pos hrc] at hmm
      injection hmm with hmm
      subst hmm
      subst hrc
      rw [getA_setA] at hit
      by_cases hik : jvalKey (item.getProp "id") = idk
      · rw [if_pos hik] at hit
        injection hit with hit
        subst hit
        rw [hitem]
        apply hcoh
        rw [← hid0, hik, hid]
      · rw [if_neg hik] at hit
        cases hcc : getA c.itemCache rc with
        | none => rw [hcc] at hit; simp [getA_nil] at hit
        | some mm00 =>
          rw [hcc] at hit
          exact hOK.2 rc mm00 hcc idk it hit id hid
    · rw [if_neg hrc] at hmm
      exact hOK.2 rc' mm hmm idk it hit id hid
  · -- CachesND, per-collection clause
    intro rc' mm hmm
    simp only [getA_setA] at hmm
    by_cases hrc : rc = rc'
    · rw [if_pos hrc] at hmm
      injection hmm with hmm
      subst hmm
      exact noDupKeys_setA _ _ _ hmm0ND
    · rw [if_neg hrc] at hmm
      exact hND.2.2 rc' mm hmm
  · -- cacheLE, itemCache clause
    intro rc' mm hmm
    by_cases hrc : rc = rc'
    · subst hrc
      refine ⟨setA ((getA c.itemCache rc).getD []) (jvalKey (item.getProp "id")) item, ?_, ?_⟩
      · show getA (setA c.itemCache rc _) rc = _
        rw [getA_setA, if_pos rfl]
      · intro idk it hit
        have hmm0 : (getA c.itemCache rc).getD [] = mm := by rw [hmm]; rfl
        rw [getA_setA]
        by_cases hik : jvalKey (item.getProp "id") = idk
        · rw [if_pos hik]
          have hcanon := hOK.2 rc mm hmm idk it hit id0 (by rw [← hik, hid0])
          rw [hcanon, ← hitem]
        · rw [if_neg hik, hmm0]
          exact hit
    · refine ⟨mm, ?_, fun _ _ hh => hh⟩
      show getA (setA c.itemCache rc _) rc' = some mm
      rw [getA_setA, if_neg hrc]
      exact hmm

theorem writeItems_props (env : Env) (pk : JVal) (rc : String) :
    ∀ (items : List JVal) (c : Caches),
    (∀ id id', jvalKey id = jvalKey id' → env.itemsFetch rc id = env.itemsFetch rc id') →
    CachesOK env pk c → CachesND c →
    (∀ item ∈ items, ∃ id, item = env.itemsFetch rc id
      ∧ jvalKey (item.getProp "id") = jvalKey id) →
    CachesOK env pk (writeItems rc items c)
    ∧ CachesND (writeItems rc items c)
    ∧ cacheLE c (writeItems rc items c)
    ∧ ∀ item ∈ items, ∃ mm, getA (writeItems rc items c).itemCache rc = some mm
        ∧ getA mm (jvalKey (item.getProp "id")) = some item := by
  intro items
  induction items with
  | nil =>
    intro c _ hOK hND _
    exact ⟨hOK, hND, cacheLE_refl c, by simp⟩
  | cons item rest ih =>
    intro c hcoh hOK hND hcanon
    obtain ⟨id0, hitem, hid0⟩ := hcanon item (by simp)
    have hone := writeOne_props env pk rc item c hcoh hOK hND id0 hitem hid0
    have hwi : writeItems rc (item :: rest) c =
        writeItems rc rest ⟨c.fieldCache, setA c.itemCache rc
          (setA ((getA c.itemCache rc).getD []) (jvalKey (item.getProp "id")) item)⟩ := by
      unfold writeItems
      simp only [List.foldl_cons]
    obtain ⟨hOKr, hNDr, hLEr, hcovr⟩ := ih _ hcoh hone.1 hone.2.1
      (fun it hit => hcanon it (by simp [hit]))
    rw [hwi]
    refine ⟨hOKr, hNDr, cacheLE_trans hone.2.2 hLEr, ?_⟩
    intro it hit
    rcases List.mem_cons.mp hit with rfl | hit2
    · have h1 : getA (setA c.itemCache rc
          (setA ((getA c.itemCache rc).getD []) (jvalKey (it.getProp "id")) it)) rc =
          some (setA ((getA c.itemCache rc).getD []) (jvalKey (it.getProp "id")) it) := by
        rw [getA_setA, if_pos rfl]
      have h2 : getA (setA ((getA c.itemCache rc).getD []) (jvalKey (it.getProp "id")) it)
          (jvalKey (it.getProp "id")) = some it := by
        rw [getA_setA, if_pos rfl]
      obtain ⟨mm', hmm', hsub⟩ := hLEr.2 rc _ h1
      exact ⟨mm', hmm', hsub _ _ h2⟩
    · exact hcovr it hit2

theorem writeItems_noop (rc : String) :
    ∀ (items : List JVal) (c : Caches),
    CachesND c →
    (∀ item ∈ items, ∃ mm, getA c.itemCache rc = some mm
        ∧ getA mm (jvalKey (item.getProp "id")) = some item) →
    writeItems rc items c = c := by
  intro items
  induction items with
  | nil => intro c _ _; rfl
  | cons item rest ih =>
    intro c hND h
    obtain ⟨mm, hmm, hentry⟩ := h item (by simp)
    have hstep : setA c.itemCache rc
        (setA ((getA c.itemCache rc).getD []) (jvalKey (item.getProp "id")) item)
        = c.itemCache := by
      rw [hmm]
      show setA c.itemCache rc (setA mm (jvalKey (item.getProp "id")) item) = c.itemCache
      rw [setA_self mm _ _ (hND.2.2 rc mm hmm) hentry]
      exact setA_self c.itemCache rc mm hND.2.1 hmm
    have hwi : writeItems rc (item :: rest) c =
        writeItems rc rest ⟨c.fieldCache, setA c.itemCache rc
          (setA ((getA c.itemCache rc).getD []) (jvalKey (item.getProp "id")) item)⟩ := by
      unfold writeItems
      simp only [List.foldl_cons]
    rw [hwi]
    have hceq : (⟨c.fieldCache, setA c.itemCache rc
        (setA ((getA c.itemCache rc).getD []) (jvalKey (item.getProp "id")) item)⟩ : Caches)
        = c := by
      rw [hstep]
    rw [hceq]
    exact ih c hND (fun it hit => h it (by simp [hit]))

theorem baselineRead_props (env : Env) (c : Caches) (pk : JVal) (key : String)
    (hOK : CachesOK env pk c) (hND : CachesND c) :
    (baselineRead env c pk key).2.2 = env.fieldRead env.collection pk key
    ∧ CachesOK env pk (baselineRead env c pk key).1
    ∧ CachesND (baselineRead env c pk key).1
    ∧ cacheLE c (baselineRead env c pk key).1
    ∧ getA (baselineRead env c pk key).1.fieldCache key
        = some (env.fieldRead env.collection pk key)
    ∧ (baselineRead env c pk key).1.itemCache = c.itemCache := by
  unfold baselineRead
  cases hcc : getA c.fieldCache key with
  | some d =>
    simp only []
    exact ⟨hOK.1 key d hcc, hOK, hND, cacheLE_refl c,
      by rw [hcc, hOK.1 key d hcc], trivial⟩
  | none =>
    simp only []
    refine ⟨trivial, ?_, ?_, ?_, ?_, trivial⟩
    · refine ⟨?_, hOK.2⟩
      intro k d h
      have h' : getA (setA c.fieldCache key (env.fieldRead env.collection pk key)) k
          = some d := h
      rw [getA_setA] at h'
      by_cases hk : key = k
      · subst hk
        rw [if_pos rfl] at h'
        injection h' with h'
        rw [← h']
      · rw [if_neg hk] at h'
        exact hOK.1 k d h'
    · exact ⟨noDupKeys_setA _ _ _ hND.1, hND.2.1, hND.2.2⟩
    · refine ⟨?_, fun rc mm h => ⟨mm, h, fun _ _ hh => hh⟩⟩
      intro k d h
      show getA (setA c.fieldCache key (env.fieldRead env.collection pk key)) k = some d
      rw [getA_setA]
      by_cases hk : key = k
      · subst hk
        rw [hcc] at h
        cases h
      · rw [if_neg hk]
        exact h
    · show getA (setA c.fieldCache key (env.fieldRead env.collection pk key)) key
        = some (env.fieldRead env.collection pk key)
      rw [getA_setA, if_pos rfl]

theorem resolveItems_state (env : Env) (pk : JVal) (m2o : Bool) (rel : Relation)
    (FC : JVal) (ids : List JVal) (c : Caches)
    (hconsist : ∀ rc id, jvalKey ((env.itemsFetch rc id).getProp "id") = jvalKey id)
    (hcoh : ∀ rc id id', jvalKey id = jvalKey id' →
      env.itemsFetch rc id = env.itemsFetch rc id')
    (hOK : CachesOK env pk c) (hND : CachesND c) :
    CachesOK env pk (resolveItems env c m2o rel FC ids).1
    ∧ CachesND (resolveItems env c m2o rel FC ids).1
    ∧ cacheLE c (resolveItems env c m2o rel FC ids).1 := by
  unfold resolveItems
  by_cases he : ids.isEmpty = true
  · simp only [he, if_true]
    exact ⟨hOK, hND, cacheLE_refl c⟩
  · have he' : ids.isEmpty = false := by simpa using he
    simp only [he', Bool.false_eq_true, if_false]
    cases hrcv : (if m2o then rel.related_collection else some rel.collection) with
    | none => exact ⟨hOK, hND, cacheLE_refl c⟩
    | some rc =>
      by_cases hrc' : rc = ""
      · simp only [if_pos hrc']
        exact ⟨hOK, hND, cacheLE_refl c⟩
      · simp only [if_neg hrc']
        by_cases hhit : ((getA c.itemCache rc).isSome
            && ids.all (fun id => hasA ((getA c.itemCache rc).getD []) (jvalKey id))) = true
        · simp only [hhit, if_true]
          have hhit2 : (getA c.itemCache rc).isSome = true
              ∧ ids.all (fun id => hasA ((getA c.itemCache rc).getD []) (jvalKey id)) = true := by
            rw [← Bool.and_eq_true]
            exact hhit
          obtain ⟨mm, hsome⟩ := Option.isSome_iff_exists.mp hhit2.1
          apply (writeItems_props env pk rc _ c (fun id id' => hcoh rc id id') hOK hND ?_).imp
            id (fun h => ⟨h.1, h.2.1⟩)
          intro item hitem
          obtain ⟨id, hid, heq⟩ := List.mem_map.mp hitem
          have hhas : hasA ((getA c.itemCache rc).getD []) (jvalKey id) = true :=
            List.all_eq_true.mp hhit2.2 id hid
          rw [hasA_eq, hsome] at hhas
          simp only [Option.getD_some] at hhas
          obtain ⟨it, hit⟩ := Option.isSome_iff_exists.mp hhas
          have hcanon := hOK.2 rc mm hsome (jvalKey id) it hit id rfl
          refine ⟨id, ?_, ?_⟩
          · rw [← heq, hsome]
            show (getA mm (jvalKey id)).getD JVal.undef = env.itemsFetch rc id
            rw [hit]
            exact hcanon
          · rw [← heq, hsome]
            show jvalKey (((getA mm (jvalKey id)).getD JVal.undef).getProp "id") = jvalKey id
            rw [hit]
            show jvalKey (it.getProp "id") = jvalKey id
            rw [hcanon]
            exact hconsist rc id
        · have hhit' : ((getA c.itemCache rc).isSome
              && ids.all (fun id => hasA ((getA c.itemCache rc).getD []) (jvalKey id))) = false := by
            simpa using hhit
          simp only [hhit', Bool.false_eq_true, if_false]
          apply (writeItems_props env pk rc _ c (fun id id' => hcoh rc id id') hOK hND ?_).imp
            id (fun h => ⟨h.1, h.2.1⟩)
          intro item hitem
          obtain ⟨id, _, heq⟩ := List.mem_map.mp hitem
          exact ⟨id, heq.symm, by rw [← heq]; exact hconsist rc id⟩

theorem resolveItems_canon (env : Env) (pk : JVal) (m2o : Bool) (rel : Relation)
    (FC : JVal) (ids : List JVal) (c : Caches) (rc : String)
    (hconsist : ∀ rc id, jvalKey ((env.itemsFetch rc id).getProp "id") = jvalKey id)
    (hcoh : ∀ rc id id', jvalKey id = jvalKey id' →
      env.itemsFetch rc id = env.itemsFetch rc id')
    (hOK : CachesOK env pk c) (hND : CachesND c)
    (hrcv : (if m2o then rel.related_collection else some rel.collection) = some rc)
    (hrc' : rc ≠ "") :
    (resolveItems env c m2o rel FC ids).2.2 =
      ids.map (fun id => mergeItem FC (env.itemsFetch rc id))
    ∧ (ids.isEmpty = true ∨ ∃ mm,
        getA (resolveItems env c m2o rel FC ids).1.itemCache rc = some mm
        ∧ ∀ id ∈ ids, getA mm (jvalKey id) = some (env.itemsFetch rc id)) := by
  by_cases he : ids.isEmpty = true
  · have hnil : ids = [] := List.isEmpty_iff.mp he
    subst hnil
    exact ⟨rfl, Or.inl rfl⟩
  · have he' : ids.isEmpty = false := by simpa using he
    have hne : ids ≠ [] := by
      intro h
      rw [h] at he'
      simp at he'
    obtain ⟨id0, hid0⟩ := List.exists_mem_of_ne_nil ids hne
    unfold resolveItems
    simp only [he', Bool.false_eq_true, if_false, hrcv, if_neg hrc']
    by_cases hhit : ((getA c.itemCache rc).isSome
        && ids.all (fun id => hasA ((getA c.itemCache rc).getD []) (jvalKey id))) = true
    · simp only [hhit, if_true]
      have hhit2 : (getA c.itemCache rc).isSome = true
          ∧ ids.all (fun id => hasA ((getA c.itemCache rc).getD []) (jvalKey id)) = true := by
        rw [← Bool.and_eq_true]
        exact hhit
      obtain ⟨mm, hsome⟩ := Option.isSome_iff_exists.mp hhit2.1
      have hvals : ∀ id ∈ ids,
          Obj.get ((getA c.itemCache rc).getD []) (jvalKey id) = env.itemsFetch rc id := by
        intro id hid
        have hhas : hasA ((getA c.itemCache rc).getD []) (jvalKey id) = true :=
          List.all_eq_true.mp hhit2.2 id hid
        rw [hasA_eq, hsome] at hhas
        simp only [Option.getD_some] at hhas
        obtain ⟨it, hit⟩ := Option.isSome_iff_exists.mp hhas
        rw [hsome]
        show (getA mm (jvalKey id)).getD JVal.undef = env.itemsFetch rc id
        rw [hit]
        exact hOK.2 rc mm hsome (jvalKey id) it hit id rfl
      have hdataeq : List.map (fun id => Obj.get ((getA c.itemCache rc).getD []) (jvalKey id)) ids
          = List.map (fun id => env.itemsFetch rc id) ids :=
        List.map_congr_left hvals
      constructor
      · rw [hdataeq, List.map_map]
        rfl
      · right
        have hcanon : ∀ item ∈ List.map (fun id =>
            Obj.get ((getA c.itemCache rc).getD []) (jvalKey id)) ids,
            ∃ id, item = env.itemsFetch rc id
              ∧ jvalKey (item.getProp "id") = jvalKey id := by
          intro item hitem
          obtain ⟨id, hid, heq⟩ := List.mem_map.mp hitem
          refine ⟨id, ?_, ?_⟩
          · rw [← heq, hvals id hid]
          · rw [← heq, hvals id hid]
            exact hconsist rc id
        have hcov := (writeItems_props env pk rc _ c (fun id id' => hcoh rc id id')
          hOK hND hcanon).2.2.2
        obtain ⟨mm0, hmm0, _⟩ := hcov _ (List.mem_map_of_mem _ hid0)
        refine ⟨mm0, hmm0, ?_⟩
        intro id hid
        obtain ⟨mm1, hmm1, hentry⟩ := hcov _ (List.mem_map_of_mem _ hid)
        rw [hmm0] at hmm1
        injection hmm1 with hmm1
        subst hmm1
        rw [hvals id hid] at hentry
        rw [hconsist rc id] at hentry
        exact hentry
    · have hhit' : ((getA c.itemCache rc).isSome
          && ids.all (fun id => hasA ((getA c.itemCache rc).getD []) (jvalKey id))) = false := by
        simpa using hhit
      simp only [hhit', Bool.false_eq_true, if_false]
      have hcanon : ∀ item ∈ List.map (fun id => env.itemsFetch rc id) ids,
          ∃ id, item = env.itemsFetch rc id
            ∧ jvalKey (item.getProp "id") = jvalKey id := by
        intro item hitem
        obtain ⟨id, _, heq⟩ := List.mem_map.mp hitem
        exact ⟨id, heq.symm, by rw [← heq]; exact hconsist rc id⟩
      constructor
      · rw [List.map_map]
        rfl
      · right
        have hcov := (writeItems_props env pk rc _ c (fun id id' => hcoh rc id id')
          hOK hND hcanon).2.2.2
        obtain ⟨mm0, hmm0, _⟩ := hcov _ (List.mem_map_of_mem _ hid0)
        refine ⟨mm0, hmm0, ?_⟩
        intro id hid
        obtain ⟨mm1, hmm1, hentry⟩ := hcov _ (List.mem_map_of_mem _ hid)
        rw [hmm0] at hmm1
        injection hmm1 with hmm1
        subst hmm1
        rw [hconsist rc id] at hentry
        exact hentry

theorem resolveItems_sim (env : Env) (pk : JVal) (m2o : Bool) (rel : Relation)
    (FC : JVal) (ids : List JVal) (c cF : Caches)
    (hconsist : ∀ rc id, jvalKey ((env.itemsFetch rc id).getProp "id") = jvalKey id)
    (hcoh : ∀ rc id id', jvalKey id = jvalKey id' →
      env.itemsFetch rc id = env.itemsFetch rc id')
    (hOK : CachesOK env pk c) (hND : CachesND c) (hNDF : CachesND cF)
    (hLE : cacheLE (resolveItems env c m2o rel FC ids).1 cF) :
    resolveItems env cF m2o rel FC ids
      = (cF, 0, (resolveItems env c m2o rel FC ids).2.2) := by
  by_cases he : ids.isEmpty = true
  · have hnil : ids = [] := List.isEmpty_iff.mp he
    subst hnil
    rfl
  · have he' : ids.isEmpty = false := by simpa using he
    cases hrcv : (if m2o then rel.related_collection else some rel.collection) with
    | none =>
      unfold resolveItems
      simp only [he', Bool.false_eq_true, if_false, hrcv]
    | some rc =>
      by_cases hrc' : rc = ""
      · unfold resolveItems
        simp only [he', Bool.false_eq_true, if_false, hrcv, if_pos hrc']
      · obtain ⟨hval1, hcov1⟩ := resolveItems_canon env pk m2o rel FC ids c rc
          hconsist hcoh hOK hND hrcv hrc'
        rcases hcov1 with hcov1 | ⟨mm, hmm, hcov⟩
        · rw [hcov1] at he'
          cases he'
        · obtain ⟨mmF, hmmF, hsub⟩ := hLE.2 rc mm hmm
          have hcovF : ∀ id ∈ ids, getA mmF (jvalKey id) = some (env.itemsFetch rc id) :=
            fun id hid => hsub _ _ (hcov id hid)
          have hvalsF : ∀ id ∈ ids,
              Obj.get ((getA cF.itemCache rc).getD []) (jvalKey id)
                = env.itemsFetch rc id := by
            intro id hid
            rw [hmmF]
            show (getA mmF (jvalKey id)).getD JVal.undef = env.itemsFetch rc id
            rw [hcovF id hid]
            rfl
          have hhitF : ((getA cF.itemCache rc).isSome
              && ids.all (fun id =>
                hasA ((getA cF.itemCache rc).getD []) (jvalKey id))) = true := by
            rw [Bool.and_eq_true]
            constructor
            · rw [hmmF]
              rfl
            · rw [List.all_eq_true]
              intro id hid
              show hasA ((getA cF.itemCache rc).getD []) (jvalKey id) = true
              rw [hasA_eq, hmmF]
              show (getA mmF (jvalKey id)).isSome = true
              rw [hcovF id hid]
              rfl
          rw [hval1]
          unfold resolveItems
          simp only [he', Bool.false_eq_true, if_false, hrcv, if_neg hrc', hhitF, if_true]
          have hpresent : ∀ item ∈ List.map (fun id =>
              Obj.get ((getA cF.itemCache rc).getD []) (jvalKey id)) ids,
              ∃ mm', getA cF.itemCache rc = some mm'
                ∧ getA mm' (jvalKey (item.getProp "id")) = some item := by
            intro item hitem
            obtain ⟨id, hid, heq⟩ := List.mem_map.mp hitem
            refine ⟨mmF, hmmF, ?_⟩
            have hival : item = env.itemsFetch rc id := by
              rw [← heq]
              exact hvalsF id hid
            rw [hival, hconsist rc id]
            exact hcovF id hid
          rw [writeItems_noop rc (List.map (fun id =>
              Obj.get ((getA cF.itemCache rc).getD []) (jvalKey id)) ids) cF hNDF hpresent]
          rw [show List.map (fun id =>
              Obj.get ((getA cF.itemCache rc).getD []) (jvalKey id)) ids
              = List.map (fun id => env.itemsFetch rc id) ids from
            List.map_congr_left hvalsF]
          rw [List.map_map]
          rfl

theorem processKey_some_eq (env : Env) (c : Caches) (valObj oldValObj : Obj) (pk : JVal)
    (key : String) (rel : Relation)
    (hfind : env.relations.find? (fun r => relMatchesKey r key) = some rel)
    (htpl : checkFieldInTemplate env.template key = true) :
    processKey env c valObj oldValObj pk key =
      (let isM2O := rel.collection == env.collection
       let fieldName := (if isM2O then rel.meta.bind (fun m => m.many_field)
                         else rel.meta.bind (fun m => m.one_field)).getD "undefined"
       let raw := Obj.get valObj fieldName
       let fc0 := if raw == JVal.undef || raw == JVal.null then defaultMutation else raw
       if isM2O then
         let c1 := if m2oClears fc0 (Obj.get oldValObj key) then emptyCaches else c
         let FC := normalizeM2O fc0
         let ri := resolveItems env c1 true rel FC (concatUpdateIds FC [])
         (ri.1, ri.2.1, some ((appendCreate FC ri.2.2).headD JVal.undef))
       else
         let c1 := if o2mClears fc0 (Obj.get oldValObj key) then emptyCaches else c
         let bl : Caches × Nat × List JVal :=
           if pk != JVal.str "+" then
             let r := baselineRead env c1 pk key
             (r.1, r.2.1, jsConcat [] r.2.2)
           else (c1, 0, [])
         let ids := concatUpdateIds fc0 (filterBaseline fc0 bl.2.2)
         let ri := resolveItems env bl.1 false rel fc0 ids
         (ri.1, bl.2.1 + ri.2.1, some (JVal.arr (appendCreate fc0 ri.2.2)))) := by
  unfold processKey
  rw [hfind]
  have h1 : ¬((!checkFieldInTemplate env.template key) = true) := by simp [htpl]
  simp only [if_neg h1]

/-- The cache-reset condition the key loop evaluates for `key`
(utils.ts 112-117 for many-to-one, 126-131 for one-to-many); `false` when
the key has no matching relation or is not referenced in the template, so
the loop body is skipped. -/
def clearsAt (env : Env) (valObj oldValObj : Obj) (key : String) : Bool :=
  match env.relations.find? (fun rel => relMatchesKey rel key) with
  | none => false
  | some rel =>
    if !checkFieldInTemplate env.template key then false
    else
      let isM2O := rel.collection == env.collection
      let fieldName := (if isM2O then rel.meta.bind (fun m => m.many_field)
                        else rel.meta.bind (fun m => m.one_field)).getD "undefined"
      let raw := Obj.get valObj fieldName
      let fc0 := if raw == JVal.undef || raw == JVal.null then defaultMutation else raw
      if isM2O then m2oClears fc0 (Obj.get oldValObj key)
      else o2mClears fc0 (Obj.get oldValObj key)

theorem clearsAt_some (env : Env) (valObj oldValObj : Obj) (key : String) (rel : Relation)
    (hfind : env.relations.find? (fun r => relMatchesKey r key) = some rel)
    (htpl : checkFieldInTemplate env.template key = true) :
    clearsAt env valObj oldValObj key =
      (let isM2O := rel.collection == env.collection
       let fieldName := (if isM2O then rel.meta.bind (fun m => m.many_field)
                         else rel.meta.bind (fun m => m.one_field)).getD "undefined"
       let raw := Obj.get valObj fieldName
       let fc0 := if raw == JVal.undef || raw == JVal.null then defaultMutation else raw
       if isM2O then m2oClears fc0 (Obj.get oldValObj key)
       else o2mClears fc0 (Obj.get oldValObj key)) := by
  unfold clearsAt
  rw [hfind]
  have h1 : ¬((!checkFieldInTemplate env.template key) = true) := by simp [htpl]
  simp only [if_neg h1]

theorem processKey_mono (env : Env) (pk : JVal) (v old : Obj) (key : String) (c : Caches)
    (hconsist : ∀ rc id, jvalKey ((env.itemsFetch rc id).getProp "id") = jvalKey id)
    (hcoh : ∀ rc id id', jvalKey id = jvalKey id' →
      env.itemsFetch rc id = env.itemsFetch rc id')
    (hOK : CachesOK env pk c) (hND : CachesND c)
    (hnc : clearsAt env v old key = false) :
    CachesOK env pk (processKey env c v old pk key).1
    ∧ CachesND (processKey env c v old pk key).1
    ∧ cacheLE c (processKey env c v old pk key).1 := by
  cases hfind : env.relations.find? (fun r => relMatchesKey r key) with
  | none =>
    rw [processKey_none env c v old pk key (Or.inl hfind)]
    exact ⟨hOK, hND, cacheLE_refl c⟩
  | some rel =>
    by_cases htpl : checkFieldInTemplate env.template key = true
    case neg =>
      rw [processKey_none env c v old pk key (Or.inr (Bool.eq_false_iff.mpr htpl))]
      exact ⟨hOK, hND, cacheLE_refl c⟩
    case pos =>
      rw [processKey_some_eq env c v old pk key rel hfind htpl]
      rw [clearsAt_some env v old key rel hfind htpl] at hnc
      cases hm : (rel.collection == env.collection) with
      | true =>
        simp only [hm, if_true] at hnc ⊢
        simp only [hnc, Bool.false_eq_true, if_false]
        exact resolveItems_state env pk true rel _ _ c hconsist hcoh hOK hND
      | false =>
        simp only [hm, Bool.false_eq_true, if_false] at hnc ⊢
        simp only [hnc, if_false]
        by_cases hpk : (pk != JVal.str "+") = true
        · simp only [hpk, if_true]
          obtain ⟨_, hOK2, hND2, hLE2, _, _⟩ := baselineRead_props env c pk key hOK hND
          refine ⟨(resolveItems_state env pk false rel _ _ _ hconsist hcoh hOK2 hND2).1,
            (resolveItems_state env pk false rel _ _ _ hconsist hcoh hOK2 hND2).2.1,
            cacheLE_trans hLE2
              (resolveItems_state env pk false rel _ _ _ hconsist hcoh hOK2 hND2).2.2⟩
        · simp only [Bool.not_eq_true] at hpk
          simp only [hpk, Bool.false_eq_true, if_false]
          exact resolveItems_state env pk false rel _ _ c hconsist hcoh hOK hND

theorem processKey_sim (env : Env) (pk : JVal) (v old1 old2 : Obj) (key : String)
    (c cF : Caches)
    (hconsist : ∀ rc id, jvalKey ((env.itemsFetch rc id).getProp "id") = jvalKey id)
    (hcoh : ∀ rc id id', jvalKey id = jvalKey id' →
      env.itemsFetch rc id = env.itemsFetch rc id')
    (hOK : CachesOK env pk c) (hND : CachesND c) (hNDF : CachesND cF)
    (hLE : cacheLE (processKey env c v old1 pk key).1 cF)
    (hnc1 : clearsAt env v old1 key = false)
    (hnc2 : clearsAt env v old2 key = false) :
    processKey env cF v old2 pk key = (cF, 0, (processKey env c v old1 pk key).2.2) := by
  cases hfind : env.relations.find? (fun r => relMatchesKey r key) with
  | none =>
    rw [processKey_none env cF v old2 pk key (Or.inl hfind),
      processKey_none env c v old1 pk key (Or.inl hfind)]
  | some rel =>
    by_cases htpl : checkFieldInTemplate env.template key = true
    case neg =>
      have hf : checkFieldInTemplate env.template key = false := Bool.eq_false_iff.mpr htpl
      rw [processKey_none env cF v old2 pk key (Or.inr hf),
        processKey_none env c v old1 pk key (Or.inr hf)]
    case pos =>
      rw [clearsAt_some env v old1 key rel hfind htpl] at hnc1
      rw [clearsAt_some env v old2 key rel hfind htpl] at hnc2
      rw [processKey_some_eq env c v old1 pk key rel hfind htpl] at hLE ⊢
      rw [processKey_some_eq env cF v old2 pk key rel hfind htpl]
      cases hm : (rel.collection == env.collection) with
      | true =>
        simp only [hm, if_true] at hnc1 hnc2 hLE ⊢
        simp only [hnc1, hnc2, Bool.false_eq_true, if_false] at hLE ⊢
        have hsim := resolveItems_sim env pk true rel _ _ c cF
          hconsist hcoh hOK hND hNDF hLE
        rw [hsim]
      | false =>
        simp only [hm, Bool.false_eq_true, if_false] at hnc1 hnc2 hLE ⊢
        simp only [hnc1, hnc2, Bool.false_eq_true, if_false] at hLE ⊢
        by_cases hpk : (pk != JVal.str "+") = true
        · simp only [hpk, if_true] at hLE ⊢
          obtain ⟨hval1, hOK2, hND2, hLE2, hentry, _⟩ :=
            baselineRead_props env c pk key hOK hND
          have hfcF : getA cF.fieldCache key
              = some (env.fieldRead env.collection pk key) :=
            hLE.1 key _ (by rw [resolveItems_fieldCache]; exact hentry)
          have hblF : baselineRead env cF pk key
              = (cF, 0, env.fieldRead env.collection pk key) := by
            unfold baselineRead
            rw [hfcF]
          rw [hval1] at hLE ⊢
          simp only [hblF]
          have hsim := resolveItems_sim env pk false rel _ _
            (baselineRead env c pk key).1 cF hconsist hcoh hOK2 hND2 hNDF hLE
          rw [hsim]
          rfl
        · simp only [Bool.not_eq_true] at hpk
          simp only [hpk, Bool.false_eq_true, if_false] at hLE ⊢
          have hsim := resolveItems_sim env pk false rel _ _ c cF
            hconsist hcoh hOK hND hNDF hLE
          rw [hsim]
          rfl

theorem foldStep_parts (env : Env) (v old : Obj) (pk : JVal)
    (acc : Caches × Nat × Obj) (key : String) :
    (foldStep env v old pk acc key).1 = (processKey env acc.1 v old pk key).1
    ∧ (foldStep env v old pk acc key).2.1
      = acc.2.1 + (processKey env acc.1 v old pk key).2.1
    ∧ (foldStep env v old pk acc key).2.2
      = (match (processKey env acc.1 v old pk key).2.2 with
         | some x => setA acc.2.2 key x
         | none => acc.2.2) := by
  unfold foldStep
  rcases h : processKey env acc.1 v old pk key with ⟨c2, n2, x⟩
  cases x
  · exact ⟨rfl, rfl, rfl⟩
  · exact ⟨rfl, rfl, rfl⟩

theorem foldStep_third (env : Env) (v old1 old2 : Obj) (pk : JVal)
    (c cF : Caches) (n1 n2 : Nat) (r : Obj) (key : String)
    (hsim : processKey env cF v old2 pk key
      = (cF, 0, (processKey env c v old1 pk key).2.2)) :
    foldStep env v old2 pk (cF, n2, r) key
      = (cF, n2, (foldStep env v old1 pk (c, n1, r) key).2.2) := by
  unfold foldStep
  rw [hsim]
  rcases hx : processKey env c v old1 pk key with ⟨cx, nx, x⟩
  cases x
  · rfl
  · rfl

theorem fold_mono (env : Env) (pk : JVal) (v old : Obj)
    (hconsist : ∀ rc id, jvalKey ((env.itemsFetch rc id).getProp "id") = jvalKey id)
    (hcoh : ∀ rc id id', jvalKey id = jvalKey id' →
      env.itemsFetch rc id = env.itemsFetch rc id') :
    ∀ (keys : List String) (acc : Caches × Nat × Obj),
    (∀ key ∈ keys, clearsAt env v old key = false) →
    CachesOK env pk acc.1 → CachesND acc.1 →
    CachesOK env pk (keys.foldl (foldStep env v old pk) acc).1
    ∧ CachesND (keys.foldl (foldStep env v old pk) acc).1
    ∧ cacheLE acc.1 (keys.foldl (foldStep env v old pk) acc).1 := by
  intro keys
  induction keys with
  | nil =>
    intro acc _ hOK hND
    exact ⟨hOK, hND, cacheLE_refl _⟩
  | cons key rest ih =>
    intro acc hnc hOK hND
    simp only [List.foldl_cons]
    have hstep := processKey_mono env pk v old key acc.1 hconsist hcoh hOK hND
      (hnc key (List.mem_cons_self _ _))
    have hparts := foldStep_parts env v old pk acc key
    have hOK1 : CachesOK env pk (foldStep env v old pk acc key).1 := by
      rw [hparts.1]
      exact hstep.1
    have hND1 : CachesND (foldStep env v old pk acc key).1 := by
      rw [hparts.1]
      exact hstep.2.1
    have hrest := ih (foldStep env v old pk acc key)
      (fun k hk => hnc k (List.mem_cons_of_mem _ hk)) hOK1 hND1
    refine ⟨hrest.1, hrest.2.1, cacheLE_trans ?_ hrest.2.2⟩
    rw [hparts.1]
    exact hstep.2.2

theorem fold_sim (env : Env) (pk : JVal) (v old1 old2 : Obj)
    (hconsist : ∀ rc id, jvalKey ((env.itemsFetch rc id).getProp "id") = jvalKey id)
    (hcoh : ∀ rc id id', jvalKey id = jvalKey id' →
      env.itemsFetch rc id = env.itemsFetch rc id') :
    ∀ (keys : List String) (c cF : Caches) (n1 n2 : Nat) (r : Obj),
    (∀ key ∈ keys, clearsAt env v old1 key = false) →
    (∀ key ∈ keys, clearsAt env v old2 key = false) →
    CachesOK env pk c → CachesND c → CachesND cF →
    cacheLE (keys.foldl (foldStep env v old1 pk) (c, n1, r)).1 cF →
    keys.foldl (foldStep env v old2 pk) (cF, n2, r)
      = (cF, n2, (keys.foldl (foldStep env v old1 pk) (c, n1, r)).2.2) := by
  intro keys
  induction keys with
  | nil =>
    intro c cF n1 n2 r _ _ _ _ _ _
    rfl
  | cons key rest ih =>
    intro c cF n1 n2 r hnc1 hnc2 hOK hND hNDF hLE
    simp only [List.foldl_cons] at hLE ⊢
    have hstep := processKey_mono env pk v old1 key c hconsist hcoh hOK hND
      (hnc1 key (List.mem_cons_self _ _))
    have hparts1 := foldStep_parts env v old1 pk (c, n1, r) key
    have hOKa : CachesOK env pk (foldStep env v old1 pk (c, n1, r) key).1 := by
      rw [hparts1.1]
      exact hstep.1
    have hNDa : CachesND (foldStep env v old1 pk (c, n1, r) key).1 := by
      rw [hparts1.1]
      exact hstep.2.1
    have hmono := fold_mono env pk v old1 hconsist hcoh rest
      (foldStep env v old1 pk (c, n1, r) key)
      (fun k hk => hnc1 k (List.mem_cons_of_mem _ hk)) hOKa hNDa
    have hLEstep : cacheLE (processKey env c v old1 pk key).1 cF := by
      rw [← hparts1.1]
      exact cacheLE_trans hmono.2.2 hLE
    have hsim := processKey_sim env pk v old1 old2 key c cF hconsist hcoh hOK hND hNDF
      hLEstep (hnc1 key (List.mem_cons_self _ _)) (hnc2 key (List.mem_cons_self _ _))
    rw [foldStep_third env v old1 old2 pk c cF n1 n2 r key hsim]
    exact ih (foldStep env v old1 pk (c, n1, r) key).1 cF
      (foldStep env v old1 pk (c, n1, r) key).2.1 n2
      (foldStep env v old1 pk (c, n1, r) key).2.2
      (fun k hk => hnc1 k (List.mem_cons_of_mem _ hk))
      (fun k hk => hnc2 k (List.mem_cons_of_mem _ hk))
      hOKa hNDa hNDF hLE

theorem changedFields_self (cf : String) (m : Obj) : changedFields cf m m = [] := by
  unfold changedFields
  rw [List.filter_eq_nil_iff]
  intro k _
  simp

theorem shouldUpdate_self (t cf : String) (m : Obj) : shouldUpdate t cf m m = true := by
  unfold shouldUpdate
  rw [changedFields_self]
  rfl

theorem hasA_of_mem {α : Type} (m : List (String × α)) (p : String × α) (hp : p ∈ m) :
    hasA m p.1 = true :=
  (hasA_iff_exists m p.1).mpr ⟨p, hp, rfl⟩

theorem fillRemovedKeys_covered : ∀ (old m : Obj),
    (∀ p ∈ old, hasA m p.1 = true) → fillRemovedKeys m old = m := by
  intro old
  induction old with
  | nil =>
    intro m _
    rfl
  | cons p rest ih =>
    intro m h
    unfold fillRemovedKeys
    simp only [List.foldl_cons]
    rw [if_pos (h p (List.mem_cons_self _ _))]
    exact ih m (fun q hq => h q (List.mem_cons_of_mem _ hq))

theorem fillRemovedKeys_self (m : Obj) : fillRemovedKeys m m = m :=
  fillRemovedKeys_covered m m (fun p hp => hasA_of_mem m p hp)

theorem fillRemovedKeys_nil (m : Obj) : fillRemovedKeys m [] = m := rfl

/-- C7 (amended): idempotence via caches, under no cache-reset transitions.
If the abstract client is coherent (each fetched entity carries an `id`
whose string coercion is the requested id's, and fetches agree on ids with
equal string coercions), no key of the record fires the cache-clearing
shape transition on either run, and a first invocation from empty caches
emits a ResolvedRecord, then a second invocation on the identical record
with the caches the first run left behind performs zero remote fetches and
emits the same ResolvedRecord.  (Without the no-transition hypothesis the
claim fails: a later key's clear wipes an earlier key's FieldCache entry,
see the counterexample.) -/
theorem c7_idempotence (env : Env) (valObj : Obj) (c1 : Caches) (n1 : Nat) (out1 : Obj)
    (hconsist : ∀ rc id, jvalKey ((env.itemsFetch rc id).getProp "id") = jvalKey id)
    (hcoh : ∀ rc id id', jvalKey id = jvalKey id' →
      env.itemsFetch rc id = env.itemsFetch rc id')
    (hnc1 : ∀ key ∈ valObj.map Prod.fst, clearsAt env valObj [] key = false)
    (hnc2 : ∀ key ∈ valObj.map Prod.fst, clearsAt env valObj valObj key = false)
    (hrun1 : runHandler env emptyCaches valObj none = (c1, n1, some out1)) :
    runHandler env c1 valObj (some valObj) = (c1, 0, some out1) := by
  have hfself : fillRemovedKeys valObj valObj = valObj := fillRemovedKeys_self valObj
  unfold runHandler at hrun1 ⊢
  simp only [Option.getD_none, Option.getD_some] at hrun1 ⊢
  by_cases hgate1 : shouldUpdate env.template env.computedField valObj [] = true
  case neg =>
    exfalso
    have hg : shouldUpdate env.template env.computedField valObj [] = false :=
      Bool.eq_false_iff.mpr hgate1
    simp only [hg, Bool.not_false, if_true] at hrun1
    exact Option.noConfusion
      (congrArg (fun t : Caches × Nat × Option Obj => t.2.2) hrun1)
  case pos =>
    simp only [hgate1, Bool.not_true, Bool.false_eq_true, if_false,
      fillRemovedKeys_nil] at hrun1
    simp only [Prod.mk.injEq] at hrun1
    obtain ⟨h1, h2, h3⟩ := hrun1
    simp only [shouldUpdate_self, Bool.not_true, Bool.false_eq_true, if_false, hfself]
    have hmono := fold_mono env
      (if truthy (Obj.get valObj "id") then Obj.get valObj "id" else env.pk)
      valObj [] hconsist hcoh (valObj.map Prod.fst)
      (emptyCaches, 0, ([] : Obj)) hnc1 (cachesOK_empty env _) cachesND_empty
    have hsim := fold_sim env
      (if truthy (Obj.get valObj "id") then Obj.get valObj "id" else env.pk)
      valObj [] valObj hconsist hcoh (valObj.map Prod.fst)
      emptyCaches c1 0 0 ([] : Obj) hnc1 hnc2 (cachesOK_empty env _) cachesND_empty
      (h1 ▸ hmono.2.1) (by rw [h1]; exact cacheLE_refl c1)
    rw [hsim]
    simp only [Prod.mk.injEq]
    exact ⟨trivial, trivial, h3⟩

/-- Edited collection `main` with two template-referenced one-to-many
fields `a` (relation on collection `cA`) and `b` (on `cB`); every baseline
read returns `[]` and every entity fetch echoes the requested id. -/
def env7 : Env := {
  relations := [⟨"cA", some "main", some ⟨some "a", some "fa"⟩⟩,
                ⟨"cB", some "main", some ⟨some "b", some "fb"⟩⟩]
  collection := "main"
  computedField := "comp"
  pk := .num 1
  template := "{{a}}{{b}}"
  currentUser := .null
  fieldRead := fun _ _ _ => .arr []
  itemsFetch := fun _ id => .obj [("id", id)] }

/-- A record whose key `b` holds an array raw value (so on a first run,
where the previous raw value is `undefined`, the one-to-many branch for
`b` clears both caches after `a` was already resolved). -/
def val7 : Obj := [("a", .null), ("b", .arr [])]

/-- C7 counterexample: the first invocation on `val7` succeeds (emits a
ResolvedRecord), yet re-running the handler on the identical serialized
record performs one remote fetch, not zero: while resolving `a` the first
run memoized its baseline in FieldCache, but the later key `b` — an array
raw value whose previous raw value was not an array — cleared both caches,
so the second run misses FieldCache for `a` and refetches. -/
theorem c7_counterexample_second_run_fetches :
    (runHandler env7 emptyCaches val7 none).2.2.isSome = true
    ∧ (runHandler env7 (runHandler env7 emptyCaches val7 none).1 val7
        (some val7)).2.1 = 1 := by
  decide

/-- Edited collection `main` with a single template-referenced one-to-many
field `a`; baseline reads return `[]` and entity fetches depend only on
the string coercion of the id and echo it back. -/
def envW : Env := {
  relations := [⟨"cA", some "main", some ⟨some "a", some "fa"⟩⟩]
  collection := "main"
  computedField := "comp"
  pk := .num 1
  template := "{{a}}"
  currentUser := .null
  fieldRead := fun _ _ _ => .arr []
  itemsFetch := fun _ id => .obj [("id", .str (jvalKey id))] }

/-- A record whose key `a` holds a `null` raw value: the default mutation
applies and no cache-clearing shape transition fires on any run. -/
def valW : Obj := [("a", .null)]

theorem c7_idempotence_witness :
    runHandler envW (⟨[("a", JVal.arr [])], []⟩ : Caches) valW (some valW)
      = (⟨[("a", JVal.arr [])], []⟩, 0,
         some [("a", JVal.arr []), ("__currentUser", JVal.null)]) :=
  c7_idempotence envW valW ⟨[("a", JVal.arr [])], []⟩ 1
    [("a", JVal.arr []), ("__currentUser", JVal.null)]
    (fun _ _ => rfl)
    (fun rc id id' h => by
      show JVal.obj [("id", .str (jvalKey id))] = JVal.obj [("id", .str (jvalKey id'))]
      rw [h])
    (by decide) (by decide) (by decide)

theorem c10_computed_field_self_exclusion_witness :
    shouldUpdate "{{a}}" "comp" [("comp", .num 2), ("a", .num 1)]
      [("comp", .num 1), ("a", .num 1)] = true := by
  apply c10_computed_field_self_exclusion.2
  intro k hk
  by_cases ha : k = "a"
  · subst ha
    decide
  · have h1 : ("comp" == k) = false := beq_eq_false_iff_ne.mpr (Ne.symm hk)
    have h2 : ("a" == k) = false := beq_eq_false_iff_ne.mpr (Ne.symm ha)
    simp [Obj.get, getA, List.find?_cons_of_neg, h1, h2]

end DCI
